import Mathlib

/-!
Verification of the QuantumFlow limit-order matching core.

Shallow embedding of `src/utils/types.rs`, `src/engine/orderbook.rs`,
`src/engine/matching.rs` and `src/risk/manager.rs`.

Modelling conventions:
* `rust_decimal::Decimal` is modelled by `Rat` (exact rational arithmetic);
  the operations the claims exercise are `+`, `-`, `*`, `/`, `min`, `abs`
  and comparisons, all exact here.
* `Uuid` order identifiers are modelled by `Nat`; `Trade::new` generates a
  fresh uuid and a timestamp for the trade itself, both irrelevant to the
  claims, so the `Trade` model keeps only symbol, price, quantity and the
  two order ids.  `Order` timestamps and client tags are likewise omitted.
* `BTreeMap<Decimal, Vec<Order>>` is modelled by an association list
  `List (Rat × List Order)` kept in ascending key order; `BTreeMap`
  iteration order is ascending, `.rev()` descending.
* `DashMap<String, OrderBook>` is modelled by `List (String × OrderBook)`;
  a single `submit_order` reads the book for one symbol (creating it when
  missing) and writes the updated book back, which is the single-threaded
  net effect of `get_or_create_orderbook` (clone) followed by
  `orderbooks.insert`.
-/

namespace QuantumFlow

/-- `Side` from `src/utils/types.rs`. -/
inductive Side where
  | Buy : Side
  | Sell : Side
deriving DecidableEq, Repr

/-- `OrderType` from `src/utils/types.rs`. -/
inductive OrderType where
  | Limit : OrderType
  | Market : OrderType
  | StopLimit : OrderType
  | StopMarket : OrderType
deriving DecidableEq, Repr

/-- `OrderStatus` from `src/utils/types.rs`. -/
inductive OrderStatus where
  | Pending : OrderStatus
  | Open : OrderStatus
  | PartiallyFilled : OrderStatus
  | Filled : OrderStatus
  | Cancelled : OrderStatus
  | Rejected : OrderStatus
deriving DecidableEq, Repr

/-- `Order` from `src/utils/types.rs` (timestamp and client tag omitted,
uuid modelled by `Nat`). -/
structure Order where
  id : Nat
  symbol : String
  side : Side
  order_type : OrderType
  price : Rat
  quantity : Rat
  filled_quantity : Rat
  status : OrderStatus
deriving DecidableEq, Repr

/-- `Order::remaining_quantity`. -/
def Order.remaining_quantity (o : Order) : Rat :=
  o.quantity - o.filled_quantity

/-- `Order::is_fully_filled`: `filled_quantity >= quantity`. -/
def Order.is_fully_filled (o : Order) : Bool :=
  o.quantity ≤ o.filled_quantity

/-- `Trade` from `src/utils/types.rs` (its own uuid and timestamp omitted). -/
structure Trade where
  symbol : String
  price : Rat
  quantity : Rat
  buy_order_id : Nat
  sell_order_id : Nat
deriving DecidableEq, Repr

/-- One side of the book: `BTreeMap<Decimal, Vec<Order>>` as an association
list in ascending key order. -/
abbrev Ladder := List (Rat × List Order)

namespace Ladder

/-- `BTreeMap::get` / `get_mut` (read): value at the first occurrence of key. -/
def lookup : Ladder → Rat → Option (List Order)
  | [], _ => none
  | (k, q) :: rest, p => if p = k then some q else lookup rest p

/-- `BTreeMap::remove`: drop the first occurrence of a key. -/
def erase_key : Ladder → Rat → Ladder
  | [], _ => []
  | (k, q) :: rest, p => if p = k then rest else (k, q) :: erase_key rest p

/-- In-place update of the queue at an existing key (`get_mut` write-back);
a missing key is left untouched. -/
def set_key : Ladder → Rat → List Order → Ladder
  | [], _, _ => []
  | (k, q) :: rest, p, v => if p = k then (k, v) :: rest else (k, q) :: set_key rest p v

/-- `BTreeMap::entry(price).or_insert_with(Vec::new).push(order)`, on a
ladder kept in ascending key order. -/
def insert_append : Ladder → Rat → Order → Ladder
  | [], p, o => [(p, [o])]
  | (k, q) :: rest, p, o =>
    if p = k then (k, q ++ [o]) :: rest
    else if p < k then (p, [o]) :: (k, q) :: rest
    else (k, q) :: insert_append rest p o

/-- The key sequence of the ladder. -/
def keys (l : Ladder) : List Rat := l.map (fun e => e.1)

/-- All orders resting in the ladder. -/
def orders (l : Ladder) : List Order := l.flatMap (fun e => e.2)

/-- Sum of `remaining_quantity` over a FIFO queue. -/
def queue_remaining (q : List Order) : Rat :=
  (q.map Order.remaining_quantity).sum

/-- Sum of `remaining_quantity` over the whole ladder. -/
def total_remaining (l : Ladder) : Rat :=
  (l.map (fun e => queue_remaining e.2)).sum

/-- Ascending strict key order (the `BTreeMap` representation invariant). -/
def Sorted (l : Ladder) : Prop := (keys l).Pairwise (· < ·)

end Ladder

/-- `OrderBook` from `src/engine/orderbook.rs`. -/
structure OrderBook where
  symbol : String
  bids : Ladder
  asks : Ladder
deriving DecidableEq, Repr

namespace OrderBook

/-- `OrderBook::new`. -/
def new (symbol : String) : OrderBook :=
  { symbol := symbol, bids := [], asks := [] }

/-- `OrderBook::add_order`. -/
def add_order (b : OrderBook) (o : Order) : OrderBook :=
  match o.side with
  | Side.Buy => { b with bids := Ladder.insert_append b.bids o.price o }
  | Side.Sell => { b with asks := Ladder.insert_append b.asks o.price o }

/-- The inner `while` loop of `OrderBook::match_order`: consume the FIFO at
one price level head-to-tail.  Returns the updated aggressor, the surviving
queue and the emitted trades in order.

In the source, when the resting order is not fully filled by the trade the
index `i` is not advanced and the `while` guard re-checks the aggressor;
there `trade_quantity < resting.remaining` forces
`trade_quantity = order.remaining`, so the aggressor is fully filled and
the loop exits — that branch therefore returns directly. -/
def fill_level (sym : String) (p : Rat) : Order → List Order → Order × List Order × List Trade
  | o, [] => (o, [], [])
  | o, resting :: rest =>
    if o.is_fully_filled then (o, resting :: rest, [])
    else
      let trade_quantity := min o.remaining_quantity resting.remaining_quantity
      let ids : Nat × Nat :=
        match o.side with
        | Side.Buy => (o.id, resting.id)
        | Side.Sell => (resting.id, o.id)
      let trade : Trade :=
        { symbol := sym, price := p, quantity := trade_quantity
          buy_order_id := ids.1, sell_order_id := ids.2 }
      let o2 : Order := { o with filled_quantity := o.filled_quantity + trade_quantity }
      let resting2 : Order :=
        { resting with filled_quantity := resting.filled_quantity + trade_quantity }
      if resting2.is_fully_filled then
        let r := fill_level sym p o2 rest
        (r.1, r.2.1, trade :: r.2.2)
      else
        (o2, resting2 :: rest, [trade])

/-- The candidate prices of `OrderBook::match_order` (`prices_to_match`). -/
def prices_to_match (o : Order) (opp : Ladder) : List Rat :=
  match o.side with
  | Side.Buy => (opp.filter (fun l => l.1 ≤ o.price)).map (fun l => l.1)
  | Side.Sell => (opp.reverse.filter (fun l => o.price ≤ l.1)).map (fun l => l.1)

/-- The outer `for price in prices_to_match` loop of `OrderBook::match_order`,
acting on the opposite ladder. -/
def match_loop (sym : String) : Order → Ladder → List Rat → Order × Ladder × List Trade
  | o, lad, [] => (o, lad, [])
  | o, lad, p :: ps =>
    if o.is_fully_filled then (o, lad, [])
    else
      match Ladder.lookup lad p with
      | none => match_loop sym o lad ps
      | some queue =>
        let r := fill_level sym p o queue
        let lad2 := if r.2.1 = [] then Ladder.erase_key lad p else Ladder.set_key lad p r.2.1
        let r2 := match_loop sym r.1 lad2 ps
        (r2.1, r2.2.1, r.2.2 ++ r2.2.2)

/-- `OrderBook::match_order`.  Returns the updated incoming order, the
updated book and the emitted trades in execution order. -/
def match_order (b : OrderBook) (o : Order) : Order × OrderBook × List Trade :=
  match o.side with
  | Side.Buy =>
    let r := match_loop b.symbol o b.asks (prices_to_match o b.asks)
    (r.1, { b with asks := r.2.1 }, r.2.2)
  | Side.Sell =>
    let r := match_loop b.symbol o b.bids (prices_to_match o b.bids)
    (r.1, { b with bids := r.2.1 }, r.2.2)

/-- `OrderBook::get_best_bid`: largest bid key (`keys().next_back()`). -/
def get_best_bid (b : OrderBook) : Option Rat :=
  (Ladder.keys b.bids).getLast?

/-- `OrderBook::get_best_ask`: smallest ask key (`keys().next()`). -/
def get_best_ask (b : OrderBook) : Option Rat :=
  (Ladder.keys b.asks).head?

/-- The quantity summed over a trade list. -/
def trades_qty (ts : List Trade) : Rat := (ts.map Trade.quantity).sum

/-- The resting (passive) side order id recorded in a trade, given the
aggressor side. -/
def resting_id (side : Side) (t : Trade) : Nat :=
  match side with
  | Side.Buy => t.sell_order_id
  | Side.Sell => t.buy_order_id

end OrderBook

/-- Every order rests under its own limit price (`add_order` files an order
under the key `order.price`, so books built through the public interface
satisfy this). -/
def Ladder.well_keyed (l : Ladder) : Prop := ∀ e ∈ l, ∀ r ∈ e.2, r.price = e.1

/-- The per-book part of `MatchingEngine::submit_order`: set status Open,
match, classify the status, insert the residual when not fully filled. -/
def submit_order (b : OrderBook) (o : Order) : Order × OrderBook × List Trade :=
  let o1 : Order := { o with status := OrderStatus.Open }
  let r := b.match_order o1
  let matched := r.1
  let final_order : Order :=
    if matched.is_fully_filled then { matched with status := OrderStatus.Filled }
    else if 0 < matched.filled_quantity then { matched with status := OrderStatus.PartiallyFilled }
    else matched
  let b2 := if final_order.is_fully_filled then r.2.1 else OrderBook.add_order r.2.1 final_order
  (final_order, b2, r.2.2)

/-- The engine's symbol map `DashMap<String, OrderBook>`. -/
abbrev Engine := List (String × OrderBook)

namespace Engine

/-- `DashMap::get` on the symbol map. -/
def find_book : Engine → String → Option OrderBook
  | [], _ => none
  | (s, b) :: rest, sym => if sym = s then some b else find_book rest sym

/-- `DashMap::insert`: replace the first binding of the symbol, or add one. -/
def set_book : Engine → String → OrderBook → Engine
  | [], sym, b => [(sym, b)]
  | (s, b0) :: rest, sym, b => if sym = s then (sym, b) :: rest else (s, b0) :: set_book rest sym b

end Engine

/-- `MatchingEngine::submit_order` at the engine level:
`get_or_create_orderbook` (clone), match plus residual insertion on the
clone, then `orderbooks.insert` of the updated book. -/
def engine_submit (e : Engine) (o : Order) : Order × Engine × List Trade :=
  let book := match e.find_book o.symbol with
    | some b => b
    | none => OrderBook.new o.symbol
  let r := submit_order book o
  (r.1, e.set_book o.symbol r.2.1, r.2.2)

/-- Engine states reachable from the empty engine by submitting fresh orders
(`Order::new` always starts with `filled_quantity = 0`). -/
inductive Reachable : Engine → Prop where
  | empty : Reachable []
  | step (e : Engine) (o : Order) : Reachable e → o.filled_quantity = 0 →
      Reachable (engine_submit e o).2.1

/-- `RiskLimits` from `src/risk/manager.rs`. -/
structure RiskLimits where
  max_position_size : Rat
  max_order_size : Rat
  max_daily_loss : Rat
  max_leverage : Rat
deriving DecidableEq, Repr

/-- `RiskLimits::default`. -/
def RiskLimits.default : RiskLimits :=
  { max_position_size := 100
    max_order_size := 10
    max_daily_loss := 10000
    max_leverage := 5 }

/-- `Position` from `src/risk/manager.rs`. -/
structure Position where
  symbol : String
  quantity : Rat
  average_price : Rat
  realized_pnl : Rat
deriving DecidableEq, Repr

namespace Position

/-- `Position::new`. -/
def new (symbol : String) : Position :=
  { symbol := symbol, quantity := 0, average_price := 0, realized_pnl := 0 }

/-- `Position::update`. -/
def update (p : Position) (side : Side) (price quantity : Rat) : Position :=
  match side with
  | Side.Buy =>
    let total_cost := p.average_price * p.quantity + price * quantity
    let q2 := p.quantity + quantity
    if 0 < q2 then { p with quantity := q2, average_price := total_cost / q2 }
    else { p with quantity := q2 }
  | Side.Sell =>
    let p1 := if 0 < p.quantity
      then { p with realized_pnl := p.realized_pnl + (price - p.average_price) * quantity }
      else p
    let q2 := p1.quantity - quantity
    if q2 ≤ 0 then { p1 with quantity := 0, average_price := 0 }
    else { p1 with quantity := q2 }

end Position

/-- Positions reachable from `Position::new` by updates with positive price
and positive quantity. -/
inductive PosReachable : Position → Prop where
  | base (symbol : String) : PosReachable (Position.new symbol)
  | step (p : Position) (side : Side) (price quantity : Rat) :
      PosReachable p → 0 < price → 0 < quantity →
      PosReachable (p.update side price quantity)

/-- The three rejection reasons of `RiskManager::check_order`
(the source returns `Err(String)`; the strings name these three cases). -/
inductive RiskError where
  | OrderSize : RiskError
  | PositionSize : RiskError
  | DailyLoss : RiskError
deriving DecidableEq, Repr

/-- `RiskManager::check_order`.  The per-symbol position found by
`get_position` and the guarded `daily_pnl` scalar are passed explicitly. -/
def check_order (limits : RiskLimits) (position : Position) (daily_pnl : Rat)
    (o : Order) : Except RiskError Unit :=
  if limits.max_order_size < o.quantity then Except.error RiskError.OrderSize
  else
    let new_position_size :=
      match o.side with
      | Side.Buy => position.quantity + o.quantity
      | Side.Sell => |position.quantity - o.quantity|
    if limits.max_position_size < new_position_size then Except.error RiskError.PositionSize
    else if daily_pnl < -limits.max_daily_loss then Except.error RiskError.DailyLoss
    else Except.ok ()

/-- The projected position magnitude as the specification words it: an
absolute value on both the Buy and the Sell side.  (The source computes
`position.quantity + order.quantity` without `abs` on the Buy side; the two
agree whenever position and order quantities are non-negative.) -/
def projected_position_size_spec (position : Position) (o : Order) : Rat :=
  match o.side with
  | Side.Buy => |position.quantity + o.quantity|
  | Side.Sell => |position.quantity - o.quantity|

/-- `check_order` as the specification words it: three checks applied in
order, rejecting at the first failure, with the projected position magnitude
of `projected_position_size_spec`. -/
def check_order_spec (limits : RiskLimits) (position : Position) (daily_pnl : Rat)
    (o : Order) : Except RiskError Unit :=
  if limits.max_order_size < o.quantity then Except.error RiskError.OrderSize
  else if limits.max_position_size < projected_position_size_spec position o then
    Except.error RiskError.PositionSize
  else if daily_pnl < -limits.max_daily_loss then Except.error RiskError.DailyLoss
  else Except.ok ()

/-- `Order::new` with an explicit id (uuid generation modelled by the caller
choosing the `Nat`): `filled_quantity = 0`, status `Pending`. -/
def mk_order (id : Nat) (sym : String) (side : Side) (price quantity : Rat) : Order :=
  { id := id, symbol := sym, side := side, order_type := OrderType.Limit,
    price := price, quantity := quantity, filled_quantity := 0,
    status := OrderStatus.Pending }

/-- The order-book representation invariant maintained by `submit_order`:
sorted ladders, no empty FIFO at a live key, every resting order strictly
unfilled and keyed under its own price, and every bid key strictly below
every ask key. -/
structure BookWF (b : OrderBook) : Prop where
  bids_sorted : Ladder.Sorted b.bids
  asks_sorted : Ladder.Sorted b.asks
  bids_ne : ∀ e ∈ b.bids, e.2 ≠ []
  asks_ne : ∀ e ∈ b.asks, e.2 ≠ []
  bids_rem : ∀ r ∈ Ladder.orders b.bids, 0 < r.remaining_quantity
  asks_rem : ∀ r ∈ Ladder.orders b.asks, 0 < r.remaining_quantity
  bids_keyed : Ladder.well_keyed b.bids
  asks_keyed : Ladder.well_keyed b.asks
  uncrossed : ∀ pb ∈ Ladder.keys b.bids, ∀ pa ∈ Ladder.keys b.asks, pb < pa

end QuantumFlow

unseal Rat.add Rat.sub Rat.mul Rat.inv Rat.ofScientific

namespace QuantumFlow

namespace Ladder

theorem keys_cons (k : Rat) (q : List Order) (rest : Ladder) :
    keys ((k, q) :: rest) = k :: keys rest := rfl

theorem mem_keys (l : Ladder) (k : Rat) : k ∈ keys l ↔ ∃ q, (k, q) ∈ l := by
  constructor
  · intro h
    rcases List.mem_map.1 h with ⟨⟨a, b⟩, hm, he⟩
    exact ⟨b, by rwa [show a = k from he] at hm⟩
  · rintro ⟨q, hm⟩
    exact List.mem_map.2 ⟨(k, q), hm, rfl⟩

theorem lookup_eq_none_iff (l : Ladder) (p : Rat) :
    lookup l p = none ↔ p ∉ keys l := by
  induction l with
  | nil => simp [lookup, keys]
  | cons e rest ih =>
    obtain ⟨k, q⟩ := e
    rw [keys_cons]
    by_cases h : p = k <;> simp [lookup, h, ih]

theorem lookup_mem (l : Ladder) (p : Rat) (q : List Order)
    (h : lookup l p = some q) : (p, q) ∈ l := by
  induction l with
  | nil => simp [lookup] at h
  | cons e rest ih =>
    obtain ⟨k, q0⟩ := e
    by_cases hp : p = k
    · subst hp
      simp [lookup] at h
      simp [h]
    · simp [lookup, hp] at h
      exact List.mem_cons_of_mem _ (ih h)

theorem lookup_decomp (l : Ladder) (p : Rat) (q : List Order)
    (h : lookup l p = some q) :
    ∃ pre post, l = pre ++ (p, q) :: post ∧ p ∉ keys pre ∧
      erase_key l p = pre ++ post ∧
      ∀ v, set_key l p v = pre ++ (p, v) :: post := by
  induction l with
  | nil => simp [lookup] at h
  | cons e rest ih =>
    obtain ⟨k, q0⟩ := e
    by_cases hp : p = k
    · subst hp
      simp [lookup] at h
      subst h
      exact ⟨[], rest, by simp, by simp [keys], by simp [erase_key],
        fun v => by simp [set_key]⟩
    · simp [lookup, hp] at h
      obtain ⟨pre, post, h1, h2, h3, h4⟩ := ih h
      refine ⟨(k, q0) :: pre, post, by simp [h1], ?_, ?_, fun v => ?_⟩
      · rw [keys_cons]
        intro hmem
        rcases List.mem_cons.1 hmem with h5 | h5
        · exact hp h5
        · exact h2 h5
      · simp [erase_key, hp, h3]
      · simp [set_key, hp, h4 v]

theorem keys_set_key (l : Ladder) (p : Rat) (v : List Order) :
    keys (set_key l p v) = keys l := by
  induction l with
  | nil => simp [set_key]
  | cons e rest ih =>
    obtain ⟨k, q0⟩ := e
    by_cases hp : p = k
    · simp [set_key, hp, keys_cons]
    · simp [set_key, hp, keys_cons, ih]

theorem erase_key_sublist (l : Ladder) (p : Rat) :
    (erase_key l p).Sublist l := by
  induction l with
  | nil => simp [erase_key]
  | cons e rest ih =>
    obtain ⟨k, q0⟩ := e
    by_cases hp : p = k
    · simpa [erase_key, hp] using List.sublist_cons_self (k, q0) rest
    · simpa [erase_key, hp] using ih.cons₂ (k, q0)

theorem keys_erase_key_sublist (l : Ladder) (p : Rat) :
    (keys (erase_key l p)).Sublist (keys l) :=
  (erase_key_sublist l p).map _

theorem sorted_erase_key {l : Ladder} (p : Rat) (h : Sorted l) :
    Sorted (erase_key l p) :=
  h.sublist (keys_erase_key_sublist l p)

theorem sorted_set_key {l : Ladder} (p : Rat) (v : List Order) (h : Sorted l) :
    Sorted (set_key l p v) := by
  unfold Sorted
  rw [keys_set_key]
  exact h

theorem mem_orders_iff (l : Ladder) (r : Order) :
    r ∈ orders l ↔ ∃ e ∈ l, r ∈ e.2 := by
  simp [orders, List.mem_flatMap]

theorem mem_set_key (l : Ladder) (p : Rat) (v : List Order) (e : Rat × List Order)
    (h : e ∈ set_key l p v) : e ∈ l ∨ e = (p, v) := by
  induction l with
  | nil => simp [set_key] at h
  | cons e0 rest ih =>
    obtain ⟨k, q0⟩ := e0
    by_cases hp : p = k
    · subst hp
      simp [set_key] at h
      rcases h with h | h
      · exact Or.inr (by simp [h])
      · exact Or.inl (List.mem_cons_of_mem _ h)
    · simp [set_key, hp] at h
      rcases h with h | h
      · exact Or.inl (by simp [h])
      · rcases ih h with h2 | h2
        · exact Or.inl (List.mem_cons_of_mem _ h2)
        · exact Or.inr h2

theorem mem_orders_set_key (l : Ladder) (p : Rat) (v : List Order) (r : Order)
    (h : r ∈ orders (set_key l p v)) : r ∈ v ∨ r ∈ orders l := by
  rw [mem_orders_iff] at h
  obtain ⟨e, he, hr⟩ := h
  rcases mem_set_key l p v e he with h2 | h2
  · exact Or.inr ((mem_orders_iff l r).2 ⟨e, h2, hr⟩)
  · subst h2
    exact Or.inl hr

theorem mem_orders_erase_key (l : Ladder) (p : Rat) (r : Order)
    (h : r ∈ orders (erase_key l p)) : r ∈ orders l := by
  rw [mem_orders_iff] at h
  obtain ⟨e, he, hr⟩ := h
  exact (mem_orders_iff l r).2 ⟨e, (erase_key_sublist l p).mem he, hr⟩

theorem mem_insert_append (l : Ladder) (p : Rat) (o : Order) (e : Rat × List Order)
    (h : e ∈ insert_append l p o) :
    e ∈ l ∨ e = (p, [o]) ∨ ∃ q, (p, q) ∈ l ∧ e = (p, q ++ [o]) := by
  induction l with
  | nil =>
    simp [insert_append] at h
    exact Or.inr (Or.inl h)
  | cons e0 rest ih =>
    obtain ⟨k, q0⟩ := e0
    by_cases hp : p = k
    · subst hp
      simp [insert_append] at h
      rcases h with h | h
      · exact Or.inr (Or.inr ⟨q0, by simp, h⟩)
      · exact Or.inl (List.mem_cons_of_mem _ h)
    · by_cases hlt : p < k
      · simp [insert_append, hp, hlt] at h
        rcases h with h | h | h
        · exact Or.inr (Or.inl h)
        · exact Or.inl (by simp [h])
        · exact Or.inl (List.mem_cons_of_mem _ h)
      · simp [insert_append, hp, hlt] at h
        rcases h with h | h
        · exact Or.inl (by simp [h])
        · rcases ih h with h2 | h2 | ⟨q, hq, h2⟩
          · exact Or.inl (List.mem_cons_of_mem _ h2)
          · exact Or.inr (Or.inl h2)
          · exact Or.inr (Or.inr ⟨q, List.mem_cons_of_mem _ hq, h2⟩)

theorem keys_insert_append (l : Ladder) (p : Rat) (o : Order) (k' : Rat)
    (h : k' ∈ keys (insert_append l p o)) : k' ∈ keys l ∨ k' = p := by
  rcases (mem_keys _ _).1 h with ⟨q, hq⟩
  rcases mem_insert_append l p o (k', q) hq with h2 | h2 | ⟨q2, hq2, h2⟩
  · exact Or.inl ((mem_keys _ _).2 ⟨q, h2⟩)
  · exact Or.inr (congrArg Prod.fst h2)
  · exact Or.inr (congrArg Prod.fst h2)

theorem mem_orders_insert_append (l : Ladder) (p : Rat) (o : Order) (r : Order)
    (h : r ∈ orders (insert_append l p o)) : r ∈ orders l ∨ r = o := by
  rw [mem_orders_iff] at h
  obtain ⟨e, he, hr⟩ := h
  rcases mem_insert_append l p o e he with h2 | h2 | ⟨q, hq, h2⟩
  · exact Or.inl ((mem_orders_iff l r).2 ⟨e, h2, hr⟩)
  · subst h2
    simp at hr
    exact Or.inr hr
  · subst h2
    simp at hr
    rcases hr with hr | hr
    · exact Or.inl ((mem_orders_iff l r).2 ⟨(p, q), hq, hr⟩)
    · exact Or.inr hr

theorem sorted_insert_append {l : Ladder} (p : Rat) (o : Order) (h : Sorted l) :
    Sorted (insert_append l p o) := by
  induction l with
  | nil =>
    unfold Sorted
    simp [insert_append, keys]
  | cons e0 rest ih =>
    obtain ⟨k, q0⟩ := e0
    unfold Sorted at h ⊢
    rw [keys_cons, List.pairwise_cons] at h
    obtain ⟨hk, hrest⟩ := h
    by_cases hp : p = k
    · subst hp
      rw [show insert_append ((p, q0) :: rest) p o = (p, q0 ++ [o]) :: rest from by
        simp [insert_append]]
      rw [keys_cons, List.pairwise_cons]
      exact ⟨hk, hrest⟩
    · by_cases hlt : p < k
      · rw [show insert_append ((k, q0) :: rest) p o = (p, [o]) :: (k, q0) :: rest from by
          simp [insert_append, hp, hlt]]
        rw [keys_cons, List.pairwise_cons]
        refine ⟨?_, ?_⟩
        · intro x hx
          rw [keys_cons, List.mem_cons] at hx
          rcases hx with rfl | hx
          · exact hlt
          · exact lt_trans hlt (hk x hx)
        · rw [keys_cons, List.pairwise_cons]
          exact ⟨hk, hrest⟩
      · rw [show insert_append ((k, q0) :: rest) p o = (k, q0) :: insert_append rest p o from by
          simp [insert_append, hp, hlt]]
        rw [keys_cons, List.pairwise_cons]
        refine ⟨?_, ih hrest⟩
        intro x hx
        rcases keys_insert_append rest p o x hx with h2 | h2
        · exact hk x h2
        · subst h2
          exact lt_of_le_of_ne (not_lt.1 hlt) (fun hh => hp hh.symm)

theorem lookup_not_mem_keys {l : Ladder} {p : Rat} (h : p ∉ keys l) :
    lookup l p = none := (lookup_eq_none_iff l p).2 h

theorem lookup_insert_append {l : Ladder} (hs : Sorted l) (k : Rat) (o : Order) (p : Rat) :
    lookup (insert_append l k o) p =
      if p = k then some (((lookup l k).getD []) ++ [o]) else lookup l p := by
  induction l with
  | nil =>
    by_cases hp : p = k <;> simp [insert_append, lookup, hp]
  | cons e0 rest ih =>
    obtain ⟨k0, q0⟩ := e0
    unfold Sorted at hs
    rw [keys_cons, List.pairwise_cons] at hs
    obtain ⟨hk0, hrest⟩ := hs
    by_cases hkk : k = k0
    · subst hkk
      by_cases hp : p = k <;> simp [insert_append, lookup, hp]
    · by_cases hlt : k < k0
      · have hknone : lookup ((k0, q0) :: rest) k = none := by
          apply lookup_not_mem_keys
          rw [keys_cons]
          intro hmem
          rcases List.mem_cons.1 hmem with h5 | h5
          · exact hkk h5
          · exact absurd (hk0 k h5) (not_lt.2 (le_of_lt hlt))
        rw [show insert_append ((k0, q0) :: rest) k o = (k, [o]) :: (k0, q0) :: rest from by
          simp [insert_append, hkk, hlt]]
        by_cases hp : p = k
        · subst hp
          have h6 : (if p = k0 then some q0 else lookup rest p) = none := hknone
          simp [lookup, h6]
        · simp [lookup, hp]
      · rw [show insert_append ((k0, q0) :: rest) k o = (k0, q0) :: insert_append rest k o from by
          simp [insert_append, hkk, hlt]]
        by_cases hp : p = k0
        · subst hp
          have hpk : ¬ p = k := fun hh => hkk hh.symm
          simp [lookup, hpk]
        · simp only [lookup, if_neg hp]
          rw [ih hrest]
          have hlk : lookup ((k0, q0) :: rest) k = lookup rest k := by
            simp [lookup, fun hh : k = k0 => hkk hh]
          by_cases hpk : p = k
          · subst hpk
            simp [hlk, lookup, hp]
          · simp [hpk]

end Ladder

end QuantumFlow

namespace QuantumFlow

theorem Order.is_fully_filled_iff (o : Order) :
    o.is_fully_filled = true ↔ o.quantity ≤ o.filled_quantity := by
  simp [Order.is_fully_filled]

theorem Order.not_fully_filled_iff (o : Order) :
    o.is_fully_filled = false ↔ o.filled_quantity < o.quantity := by
  simp [Order.is_fully_filled]

theorem Order.remaining_pos_iff (o : Order) :
    0 < o.remaining_quantity ↔ o.filled_quantity < o.quantity := by
  simp [Order.remaining_quantity, sub_pos]

namespace OrderBook

theorem fill_level_fields (sym : String) (p : Rat) (o : Order) (q : List Order) :
    (fill_level sym p o q).1.id = o.id ∧ (fill_level sym p o q).1.side = o.side ∧
    (fill_level sym p o q).1.price = o.price ∧
    (fill_level sym p o q).1.quantity = o.quantity ∧
    (fill_level sym p o q).1.status = o.status ∧
    (fill_level sym p o q).1.symbol = o.symbol := by
  induction q generalizing o with
  | nil => simp [fill_level]
  | cons resting rest ih =>
    by_cases h1 : o.is_fully_filled
    · simp [fill_level, h1]
    · simp only [Bool.not_eq_true] at h1
      by_cases h2 : (({ resting with filled_quantity := resting.filled_quantity + min o.remaining_quantity resting.remaining_quantity } : Order)).is_fully_filled
      · simpa [fill_level, h1, h2] using
          ih ({ o with filled_quantity := o.filled_quantity + min o.remaining_quantity resting.remaining_quantity })
      · simp only [Bool.not_eq_true] at h2
        simp [fill_level, h1, h2]

theorem fill_level_filled_sum (sym : String) (p : Rat) (o : Order) (q : List Order) :
    (fill_level sym p o q).1.filled_quantity =
      o.filled_quantity + trades_qty (fill_level sym p o q).2.2 := by
  induction q generalizing o with
  | nil => simp [fill_level, trades_qty]
  | cons resting rest ih =>
    by_cases h1 : o.is_fully_filled
    · simp [fill_level, h1, trades_qty]
    · simp only [Bool.not_eq_true] at h1
      by_cases h2 : (({ resting with filled_quantity := resting.filled_quantity + min o.remaining_quantity resting.remaining_quantity } : Order)).is_fully_filled
      · have hrec := ih ({ o with filled_quantity := o.filled_quantity + min o.remaining_quantity resting.remaining_quantity })
        simp [fill_level, h1, h2, trades_qty] at hrec ⊢
        rw [hrec]
        ring
      · simp only [Bool.not_eq_true] at h2
        simp [fill_level, h1, h2, trades_qty]

theorem min_eq_resting_of_full {o r : Order}
    (h : r.quantity ≤ r.filled_quantity + min o.remaining_quantity r.remaining_quantity) :
    min o.remaining_quantity r.remaining_quantity = r.remaining_quantity := by
  have hrem : r.remaining_quantity = r.quantity - r.filled_quantity := rfl
  refine le_antisymm (min_le_right _ _) ?_
  linarith [h, hrem]

theorem min_eq_aggr_of_not_full {o r : Order}
    (h : r.filled_quantity + min o.remaining_quantity r.remaining_quantity < r.quantity) :
    min o.remaining_quantity r.remaining_quantity = o.remaining_quantity := by
  rcases min_cases o.remaining_quantity r.remaining_quantity with ⟨he, _⟩ | ⟨he, hlt⟩
  · exact he
  · exfalso
    rw [he] at h
    have hrem : r.remaining_quantity = r.quantity - r.filled_quantity := rfl
    linarith [h, hrem]

theorem fill_level_remaining_sum (sym : String) (p : Rat) (o : Order) (q : List Order) :
    Ladder.queue_remaining (fill_level sym p o q).2.1 +
      trades_qty (fill_level sym p o q).2.2 = Ladder.queue_remaining q := by
  induction q generalizing o with
  | nil => simp [fill_level, trades_qty, Ladder.queue_remaining]
  | cons resting rest ih =>
    by_cases h1 : o.is_fully_filled
    · simp [fill_level, h1, trades_qty]
    · simp only [Bool.not_eq_true] at h1
      by_cases h2 : (({ resting with filled_quantity := resting.filled_quantity + min o.remaining_quantity resting.remaining_quantity } : Order)).is_fully_filled
      · have hfull : resting.quantity ≤ resting.filled_quantity + min o.remaining_quantity resting.remaining_quantity := by
          have := (Order.is_fully_filled_iff _).1 h2
          simpa using this
        have heq := min_eq_resting_of_full hfull
        have hrec := ih ({ o with filled_quantity := o.filled_quantity + min o.remaining_quantity resting.remaining_quantity })
        simp only [fill_level, h1, Bool.false_eq_true, if_false, h2, if_true]
        simp only [trades_qty, Ladder.queue_remaining, List.map_cons, List.sum_cons] at hrec ⊢
        linarith [hrec, heq]
      · simp only [Bool.not_eq_true] at h2
        simp only [fill_level, h1, Bool.false_eq_true, if_false, h2, if_false]
        simp only [trades_qty, Ladder.queue_remaining, List.map_cons, List.sum_cons,
          List.map_nil, List.sum_nil]
        have hr2 : ({ resting with filled_quantity := resting.filled_quantity + min o.remaining_quantity resting.remaining_quantity } : Order).remaining_quantity = resting.remaining_quantity - min o.remaining_quantity resting.remaining_quantity := by
          simp [Order.remaining_quantity]
          ring
        rw [hr2]
        ring

theorem fill_level_not_filled_empty (sym : String) (p : Rat) (o : Order) (q : List Order)
    (h : (fill_level sym p o q).1.is_fully_filled = false) :
    (fill_level sym p o q).2.1 = [] := by
  induction q generalizing o with
  | nil => simp [fill_level]
  | cons resting rest ih =>
    by_cases h1 : o.is_fully_filled
    · exfalso
      rw [show (fill_level sym p o (resting :: rest)).1 = o from by simp [fill_level, h1]] at h
      rw [h] at h1
      exact Bool.false_ne_true h1
    · simp only [Bool.not_eq_true] at h1
      by_cases h2 : (({ resting with filled_quantity := resting.filled_quantity + min o.remaining_quantity resting.remaining_quantity } : Order)).is_fully_filled
      · simp only [fill_level, h1, Bool.false_eq_true, if_false, h2, if_true] at h ⊢
        exact ih _ h
      · exfalso
        simp only [Bool.not_eq_true] at h2
        simp only [fill_level, h1, Bool.false_eq_true, if_false, h2, if_false] at h
        have hlt2 : resting.filled_quantity + min o.remaining_quantity resting.remaining_quantity < resting.quantity := by
          have := (Order.not_fully_filled_iff _).1 h2
          simpa using this
        have heq := min_eq_aggr_of_not_full hlt2
        have hlt1 : o.filled_quantity + min o.remaining_quantity resting.remaining_quantity < o.quantity := by
          have := (Order.not_fully_filled_iff _).1 h
          simpa using this
        rw [heq] at hlt1
        have hrem : o.remaining_quantity = o.quantity - o.filled_quantity := rfl
        linarith [hlt1, hrem]

theorem fill_level_filled_le (sym : String) (p : Rat) (o : Order) (q : List Order)
    (h : o.filled_quantity ≤ o.quantity) :
    (fill_level sym p o q).1.filled_quantity ≤ o.quantity := by
  induction q generalizing o with
  | nil => simpa [fill_level] using h
  | cons resting rest ih =>
    by_cases h1 : o.is_fully_filled
    · simpa [fill_level, h1] using h
    · simp only [Bool.not_eq_true] at h1
      have hm := min_le_left o.remaining_quantity resting.remaining_quantity
      have hrem : o.remaining_quantity = o.quantity - o.filled_quantity := rfl
      have hstep : o.filled_quantity + min o.remaining_quantity resting.remaining_quantity ≤ o.quantity := by
        linarith [hm, hrem]
      by_cases h2 : (({ resting with filled_quantity := resting.filled_quantity + min o.remaining_quantity resting.remaining_quantity } : Order)).is_fully_filled
      · have := ih ({ o with filled_quantity := o.filled_quantity + min o.remaining_quantity resting.remaining_quantity }) (by simpa using hstep)
        simp only [fill_level, h1, Bool.false_eq_true, if_false, h2, if_true]
        simpa using this
      · simp only [Bool.not_eq_true] at h2
        simp only [fill_level, h1, Bool.false_eq_true, if_false, h2, if_false]
        simpa using hstep

theorem fill_level_queue_rem_pos (sym : String) (p : Rat) (o : Order) (q : List Order)
    (hq : ∀ r ∈ q, 0 < r.remaining_quantity) :
    ∀ r2 ∈ (fill_level sym p o q).2.1, 0 < r2.remaining_quantity := by
  induction q generalizing o with
  | nil =>
    intro r2 hr2
    simp [fill_level] at hr2
  | cons resting rest ih =>
    by_cases h1 : o.is_fully_filled
    · intro r2 hr2
      simp only [fill_level, h1, if_true] at hr2
      exact hq r2 hr2
    · simp only [Bool.not_eq_true] at h1
      by_cases h2 : (({ resting with filled_quantity := resting.filled_quantity + min o.remaining_quantity resting.remaining_quantity } : Order)).is_fully_filled
      · intro r2 hr2
        simp only [fill_level, h1, Bool.false_eq_true, if_false, h2, if_true] at hr2
        exact ih _ (fun r hr => hq r (List.mem_cons_of_mem _ hr)) r2 hr2
      · simp only [Bool.not_eq_true] at h2
        intro r2 hr2
        simp only [fill_level, h1, Bool.false_eq_true, if_false, h2, if_false] at hr2
        rcases List.mem_cons.1 hr2 with hr2 | hr2
        · subst hr2
          have hlt2 : resting.filled_quantity + min o.remaining_quantity resting.remaining_quantity < resting.quantity := by
            have := (Order.not_fully_filled_iff _).1 h2
            simpa using this
          show 0 < resting.quantity - (resting.filled_quantity + min o.remaining_quantity resting.remaining_quantity)
          linarith [hlt2]
        · exact hq r2 (List.mem_cons_of_mem _ hr2)

theorem fill_level_queue_mem (sym : String) (p : Rat) (o : Order) (q : List Order) :
    ∀ r2 ∈ (fill_level sym p o q).2.1, ∃ r ∈ q, r2.id = r.id ∧ r2.price = r.price ∧
      r2.quantity = r.quantity ∧ r2.side = r.side ∧ r2.symbol = r.symbol := by
  induction q generalizing o with
  | nil =>
    intro r2 hr2
    simp [fill_level] at hr2
  | cons resting rest ih =>
    by_cases h1 : o.is_fully_filled
    · intro r2 hr2
      simp only [fill_level, h1, if_true] at hr2
      exact ⟨r2, hr2, rfl, rfl, rfl, rfl, rfl⟩
    · simp only [Bool.not_eq_true] at h1
      by_cases h2 : (({ resting with filled_quantity := resting.filled_quantity + min o.remaining_quantity resting.remaining_quantity } : Order)).is_fully_filled
      · intro r2 hr2
        simp only [fill_level, h1, Bool.false_eq_true, if_false, h2, if_true] at hr2
        obtain ⟨r, hr, hfacts⟩ := ih _ r2 hr2
        exact ⟨r, List.mem_cons_of_mem _ hr, hfacts⟩
      · simp only [Bool.not_eq_true] at h2
        intro r2 hr2
        simp only [fill_level, h1, Bool.false_eq_true, if_false, h2, if_false] at hr2
        rcases List.mem_cons.1 hr2 with hr2 | hr2
        · subst hr2
          exact ⟨resting, List.mem_cons_self _ _, rfl, rfl, rfl, rfl, rfl⟩
        · exact ⟨r2, List.mem_cons_of_mem _ hr2, rfl, rfl, rfl, rfl, rfl⟩

theorem fill_level_trades_pos (sym : String) (p : Rat) (o : Order) (q : List Order)
    (hq : ∀ r ∈ q, 0 < r.remaining_quantity) :
    ∀ t ∈ (fill_level sym p o q).2.2, 0 < t.quantity := by
  induction q generalizing o with
  | nil =>
    intro t ht
    simp [fill_level] at ht
  | cons resting rest ih =>
    by_cases h1 : o.is_fully_filled
    · intro t ht
      simp [fill_level, h1] at ht
    · simp only [Bool.not_eq_true] at h1
      have hopos : 0 < o.remaining_quantity := by
        rw [Order.remaining_pos_iff]
        exact (Order.not_fully_filled_iff o).1 h1
      have hrpos : 0 < resting.remaining_quantity := hq resting (List.mem_cons_self _ _)
      have hmin : 0 < min o.remaining_quantity resting.remaining_quantity :=
        lt_min hopos hrpos
      by_cases h2 : (({ resting with filled_quantity := resting.filled_quantity + min o.remaining_quantity resting.remaining_quantity } : Order)).is_fully_filled
      · intro t ht
        simp only [fill_level, h1, Bool.false_eq_true, if_false, h2, if_true] at ht
        rcases List.mem_cons.1 ht with ht | ht
        · subst ht
          exact hmin
        · exact ih _ (fun r hr => hq r (List.mem_cons_of_mem _ hr)) t ht
      · simp only [Bool.not_eq_true] at h2
        intro t ht
        simp only [fill_level, h1, Bool.false_eq_true, if_false, h2, if_false] at ht
        rcases List.mem_cons.1 ht with ht | ht
        · subst ht
          exact hmin
        · simp at ht

theorem fill_level_trades_nonneg (sym : String) (p : Rat) (o : Order) (q : List Order)
    (hq : ∀ r ∈ q, 0 ≤ r.remaining_quantity) :
    ∀ t ∈ (fill_level sym p o q).2.2, 0 ≤ t.quantity := by
  induction q generalizing o with
  | nil =>
    intro t ht
    simp [fill_level] at ht
  | cons resting rest ih =>
    by_cases h1 : o.is_fully_filled
    · intro t ht
      simp [fill_level, h1] at ht
    · simp only [Bool.not_eq_true] at h1
      have hopos : 0 < o.remaining_quantity := by
        rw [Order.remaining_pos_iff]
        exact (Order.not_fully_filled_iff o).1 h1
      have hrpos : 0 ≤ resting.remaining_quantity := hq resting (List.mem_cons_self _ _)
      have hmin : 0 ≤ min o.remaining_quantity resting.remaining_quantity :=
        le_min (le_of_lt hopos) hrpos
      by_cases h2 : (({ resting with filled_quantity := resting.filled_quantity + min o.remaining_quantity resting.remaining_quantity } : Order)).is_fully_filled
      · intro t ht
        simp only [fill_level, h1, Bool.false_eq_true, if_false, h2, if_true] at ht
        rcases List.mem_cons.1 ht with ht | ht
        · subst ht
          exact hmin
        · exact ih _ (fun r hr => hq r (List.mem_cons_of_mem _ hr)) t ht
      · simp only [Bool.not_eq_true] at h2
        intro t ht
        simp only [fill_level, h1, Bool.false_eq_true, if_false, h2, if_false] at ht
        rcases List.mem_cons.1 ht with ht | ht
        · subst ht
          exact hmin
        · simp at ht

theorem fill_level_trades_mem (sym : String) (p : Rat) (o : Order) (q : List Order) :
    ∀ t ∈ (fill_level sym p o q).2.2,
      t.symbol = sym ∧ t.price = p ∧
      (o.side = Side.Buy → t.buy_order_id = o.id ∧ ∃ r ∈ q, t.sell_order_id = r.id) ∧
      (o.side = Side.Sell → t.sell_order_id = o.id ∧ ∃ r ∈ q, t.buy_order_id = r.id) := by
  induction q generalizing o with
  | nil =>
    intro t ht
    simp [fill_level] at ht
  | cons resting rest ih =>
    by_cases h1 : o.is_fully_filled
    · intro t ht
      simp [fill_level, h1] at ht
    · simp only [Bool.not_eq_true] at h1
      by_cases h2 : (({ resting with filled_quantity := resting.filled_quantity + min o.remaining_quantity resting.remaining_quantity } : Order)).is_fully_filled
      · intro t ht
        simp only [fill_level, h1, Bool.false_eq_true, if_false, h2, if_true] at ht
        rcases List.mem_cons.1 ht with ht | ht
        · subst ht
          refine ⟨rfl, rfl, fun hs => ?_, fun hs => ?_⟩
          · rw [hs]
            exact ⟨rfl, resting, List.mem_cons_self _ _, rfl⟩
          · rw [hs]
            exact ⟨rfl, resting, List.mem_cons_self _ _, rfl⟩
        · obtain ⟨ha, hb, hc, hd⟩ := ih _ t ht
          refine ⟨ha, hb, fun hs => ?_, fun hs => ?_⟩
          · obtain ⟨hid, r, hr, hrid⟩ := hc hs
            exact ⟨hid, r, List.mem_cons_of_mem _ hr, hrid⟩
          · obtain ⟨hid, r, hr, hrid⟩ := hd hs
            exact ⟨hid, r, List.mem_cons_of_mem _ hr, hrid⟩
      · simp only [Bool.not_eq_true] at h2
        intro t ht
        simp only [fill_level, h1, Bool.false_eq_true, if_false, h2, if_false] at ht
        rcases List.mem_cons.1 ht with ht | ht
        · subst ht
          refine ⟨rfl, rfl, fun hs => ?_, fun hs => ?_⟩
          · rw [hs]
            exact ⟨rfl, resting, List.mem_cons_self _ _, rfl⟩
          · rw [hs]
            exact ⟨rfl, resting, List.mem_cons_self _ _, rfl⟩
        · simp at ht

theorem fill_level_fifo (sym : String) (p : Rat) (o : Order) (q : List Order)
    (hq : ∀ r ∈ q, 0 < r.remaining_quantity) :
    ∃ n, n ≤ q.length ∧
      (∀ r ∈ q.take n, ∃ t ∈ (fill_level sym p o q).2.2,
        resting_id o.side t = r.id ∧ t.quantity = r.remaining_quantity) ∧
      ((fill_level sym p o q).2.1 = q.drop n ∨
        ∃ r rest2 d, q.drop n = r :: rest2 ∧ 0 < d ∧ d < r.remaining_quantity ∧
          (fill_level sym p o q).2.1 =
            ({ r with filled_quantity := r.filled_quantity + d } : Order) :: rest2) := by
  induction q generalizing o with
  | nil =>
    exact ⟨0, by simp, by simp, Or.inl (by simp [fill_level])⟩
  | cons resting rest ih =>
    by_cases h1 : o.is_fully_filled
    · refine ⟨0, by simp, by simp, Or.inl ?_⟩
      simp [fill_level, h1]
    · simp only [Bool.not_eq_true] at h1
      have hopos : 0 < o.remaining_quantity := by
        rw [Order.remaining_pos_iff]
        exact (Order.not_fully_filled_iff o).1 h1
      have hrpos : 0 < resting.remaining_quantity := hq resting (List.mem_cons_self _ _)
      by_cases h2 : (({ resting with filled_quantity := resting.filled_quantity + min o.remaining_quantity resting.remaining_quantity } : Order)).is_fully_filled
      · obtain ⟨n, hn, htake, hshape⟩ :=
          ih ({ o with filled_quantity := o.filled_quantity + min o.remaining_quantity resting.remaining_quantity }) (fun r hr => hq r (List.mem_cons_of_mem _ hr))
        have hfull : resting.quantity ≤ resting.filled_quantity + min o.remaining_quantity resting.remaining_quantity := by
          have := (Order.is_fully_filled_iff _).1 h2
          simpa using this
        have heq := min_eq_resting_of_full hfull
        refine ⟨n + 1, by simpa using Nat.succ_le_succ hn, ?_, ?_⟩
        · intro r hr
          rw [List.take_succ_cons] at hr
          rcases List.mem_cons.1 hr with hr | hr
          · rw [hr]
            refine ⟨⟨sym, p, min o.remaining_quantity resting.remaining_quantity, (match o.side with | Side.Buy => (o.id, resting.id) | Side.Sell => (resting.id, o.id)).1, (match o.side with | Side.Buy => (o.id, resting.id) | Side.Sell => (resting.id, o.id)).2⟩, ?_, ?_, ?_⟩
            · simp only [fill_level, h1, Bool.false_eq_true, if_false, h2, if_true]
              exact List.mem_cons_self _ _
            · cases hs : o.side
              · rfl
              · rfl
            · exact heq
          · obtain ⟨t, ht, hta, htb⟩ := htake r hr
            refine ⟨t, ?_, hta, htb⟩
            simp only [fill_level, h1, Bool.false_eq_true, if_false, h2, if_true]
            exact List.mem_cons_of_mem _ ht
        · rw [List.drop_succ_cons]
          rcases hshape with hshape | ⟨r, rest2, d, hdrop, hd1, hd2, hshape⟩
          · refine Or.inl ?_
            simp only [fill_level, h1, Bool.false_eq_true, if_false, h2, if_true]
            exact hshape
          · refine Or.inr ⟨r, rest2, d, hdrop, hd1, hd2, ?_⟩
            simp only [fill_level, h1, Bool.false_eq_true, if_false, h2, if_true]
            exact hshape
      · simp only [Bool.not_eq_true] at h2
        have hlt2 : resting.filled_quantity + min o.remaining_quantity resting.remaining_quantity < resting.quantity := by
          have := (Order.not_fully_filled_iff _).1 h2
          simpa using this
        have hd2 : min o.remaining_quantity resting.remaining_quantity < resting.remaining_quantity := by
          have hrem : resting.remaining_quantity = resting.quantity - resting.filled_quantity := rfl
          linarith [hlt2, hrem]
        refine ⟨0, by simp, by simp, Or.inr ⟨resting, rest,
          min o.remaining_quantity resting.remaining_quantity, by simp, lt_min hopos hrpos, hd2, ?_⟩⟩
        simp only [fill_level, h1, Bool.false_eq_true, if_false, h2, if_false]

theorem trades_qty_append (a b : List Trade) :
    trades_qty (a ++ b) = trades_qty a + trades_qty b := by
  simp [trades_qty]

theorem match_loop_of_filled (sym : String) (o : Order) (lad : Ladder) (ps : List Rat)
    (h : o.is_fully_filled = true) : match_loop sym o lad ps = (o, lad, []) := by
  cases ps with
  | nil => rfl
  | cons p ps => simp [match_loop, h]

theorem match_loop_fields (sym : String) (o : Order) (lad : Ladder) (ps : List Rat) :
    (match_loop sym o lad ps).1.id = o.id ∧ (match_loop sym o lad ps).1.side = o.side ∧
    (match_loop sym o lad ps).1.price = o.price ∧
    (match_loop sym o lad ps).1.quantity = o.quantity ∧
    (match_loop sym o lad ps).1.status = o.status ∧
    (match_loop sym o lad ps).1.symbol = o.symbol := by
  induction ps generalizing o lad with
  | nil => simp [match_loop]
  | cons p ps ih =>
    by_cases h1 : o.is_fully_filled
    · simp [match_loop, h1]
    · simp only [Bool.not_eq_true] at h1
      cases hlk : Ladder.lookup lad p with
      | none =>
        simp only [match_loop, h1, Bool.false_eq_true, if_false, hlk]
        exact ih o lad
      | some queue =>
        simp only [match_loop, h1, Bool.false_eq_true, if_false, hlk]
        have hfl := fill_level_fields sym p o queue
        have hml := ih (fill_level sym p o queue).1
          (if (fill_level sym p o queue).2.1 = [] then Ladder.erase_key lad p
           else Ladder.set_key lad p (fill_level sym p o queue).2.1)
        refine ⟨?_, ?_, ?_, ?_, ?_, ?_⟩
        · rw [hml.1, hfl.1]
        · rw [hml.2.1, hfl.2.1]
        · rw [hml.2.2.1, hfl.2.2.1]
        · rw [hml.2.2.2.1, hfl.2.2.2.1]
        · rw [hml.2.2.2.2.1, hfl.2.2.2.2.1]
        · rw [hml.2.2.2.2.2, hfl.2.2.2.2.2]

theorem match_loop_filled_sum (sym : String) (o : Order) (lad : Ladder) (ps : List Rat) :
    (match_loop sym o lad ps).1.filled_quantity =
      o.filled_quantity + trades_qty (match_loop sym o lad ps).2.2 := by
  induction ps generalizing o lad with
  | nil => simp [match_loop, trades_qty]
  | cons p ps ih =>
    by_cases h1 : o.is_fully_filled
    · simp [match_loop, h1, trades_qty]
    · simp only [Bool.not_eq_true] at h1
      cases hlk : Ladder.lookup lad p with
      | none =>
        simp only [match_loop, h1, Bool.false_eq_true, if_false, hlk]
        exact ih o lad
      | some queue =>
        simp only [match_loop, h1, Bool.false_eq_true, if_false, hlk]
        rw [trades_qty_append]
        have hml := ih (fill_level sym p o queue).1
          (if (fill_level sym p o queue).2.1 = [] then Ladder.erase_key lad p
           else Ladder.set_key lad p (fill_level sym p o queue).2.1)
        rw [hml, fill_level_filled_sum sym p o queue]
        ring

theorem match_loop_filled_le (sym : String) (o : Order) (lad : Ladder) (ps : List Rat)
    (h : o.filled_quantity ≤ o.quantity) :
    (match_loop sym o lad ps).1.filled_quantity ≤ o.quantity := by
  induction ps generalizing o lad with
  | nil => simpa [match_loop] using h
  | cons p ps ih =>
    by_cases h1 : o.is_fully_filled
    · simpa [match_loop, h1] using h
    · simp only [Bool.not_eq_true] at h1
      cases hlk : Ladder.lookup lad p with
      | none =>
        simp only [match_loop, h1, Bool.false_eq_true, if_false, hlk]
        exact ih o lad h
      | some queue =>
        simp only [match_loop, h1, Bool.false_eq_true, if_false, hlk]
        have hq := fill_level_filled_le sym p o queue h
        have hqty := (fill_level_fields sym p o queue).2.2.2.1
        have := ih (fill_level sym p o queue).1
          (if (fill_level sym p o queue).2.1 = [] then Ladder.erase_key lad p
           else Ladder.set_key lad p (fill_level sym p o queue).2.1) (by rw [hqty]; exact hq)
        rwa [hqty] at this

theorem total_remaining_append (a b : Ladder) :
    Ladder.total_remaining (a ++ b) =
      Ladder.total_remaining a + Ladder.total_remaining b := by
  simp [Ladder.total_remaining]

theorem match_loop_total_remaining (sym : String) (o : Order) (lad : Ladder) (ps : List Rat) :
    Ladder.total_remaining (match_loop sym o lad ps).2.1 +
      trades_qty (match_loop sym o lad ps).2.2 = Ladder.total_remaining lad := by
  induction ps generalizing o lad with
  | nil => simp [match_loop, trades_qty]
  | cons p ps ih =>
    by_cases h1 : o.is_fully_filled
    · simp [match_loop, h1, trades_qty]
    · simp only [Bool.not_eq_true] at h1
      cases hlk : Ladder.lookup lad p with
      | none =>
        simp only [match_loop, h1, Bool.false_eq_true, if_false, hlk]
        exact ih o lad
      | some queue =>
        simp only [match_loop, h1, Bool.false_eq_true, if_false, hlk]
        rw [trades_qty_append]
        obtain ⟨pre, post, hdec, hpre, herase, hset⟩ := Ladder.lookup_decomp lad p queue hlk
        have hlvl := fill_level_remaining_sum sym p o queue
        by_cases hq2 : (fill_level sym p o queue).2.1 = []
        · rw [hq2] at hlvl
          simp only [hq2, eq_self_iff_true, if_true]
          rw [herase]
          have hml := ih (fill_level sym p o queue).1 (pre ++ post)
          rw [hdec]
          simp only [Ladder.total_remaining, Ladder.queue_remaining, List.map_append,
            List.sum_append, List.map_cons, List.sum_cons, List.map_nil, List.sum_nil,
            zero_add] at hml hlvl ⊢
          linarith [hml, hlvl]
        · simp only [hq2, if_false]
          rw [hset]
          have hml := ih (fill_level sym p o queue).1
            (pre ++ (p, (fill_level sym p o queue).2.1) :: post)
          rw [hdec]
          simp only [Ladder.total_remaining, Ladder.queue_remaining, List.map_append,
            List.sum_append, List.map_cons, List.sum_cons, List.map_nil, List.sum_nil,
            zero_add] at hml hlvl ⊢
          linarith [hml, hlvl]

theorem match_loop_ladder_cases (sym : String) (o : Order) (lad : Ladder) (p : Rat)
    (ps : List Rat) :
    (match_loop sym o lad (p :: ps)).2.1 = lad ∨
    (∃ queue, Ladder.lookup lad p = some queue ∧
      (match_loop sym o lad (p :: ps)).2.1 = (match_loop sym (fill_level sym p o queue).1
        (if (fill_level sym p o queue).2.1 = [] then Ladder.erase_key lad p
         else Ladder.set_key lad p (fill_level sym p o queue).2.1) ps).2.1) ∨
    (Ladder.lookup lad p = none ∧
      (match_loop sym o lad (p :: ps)).2.1 = (match_loop sym o lad ps).2.1) := by
  by_cases h1 : o.is_fully_filled
  · simp [match_loop, h1]
  · simp only [Bool.not_eq_true] at h1
    cases hlk : Ladder.lookup lad p with
    | none =>
      refine Or.inr (Or.inr ⟨rfl, ?_⟩)
      simp only [match_loop, h1, Bool.false_eq_true, if_false, hlk]
    | some queue =>
      refine Or.inr (Or.inl ⟨queue, rfl, ?_⟩)
      simp only [match_loop, h1, Bool.false_eq_true, if_false, hlk]

theorem match_loop_keys_mem (sym : String) (o : Order) (lad : Ladder) (ps : List Rat)
    (k : Rat) (h : k ∈ Ladder.keys (match_loop sym o lad ps).2.1) :
    k ∈ Ladder.keys lad := by
  induction ps generalizing o lad with
  | nil => simpa [match_loop] using h
  | cons p ps ih =>
    by_cases h1 : o.is_fully_filled
    · simpa [match_loop, h1] using h
    · simp only [Bool.not_eq_true] at h1
      cases hlk : Ladder.lookup lad p with
      | none =>
        simp only [match_loop, h1, Bool.false_eq_true, if_false, hlk] at h
        exact ih o lad h
      | some queue =>
        simp only [match_loop, h1, Bool.false_eq_true, if_false, hlk] at h
        by_cases hq2 : (fill_level sym p o queue).2.1 = []
        · simp only [hq2, eq_self_iff_true, if_true] at h
          have h2 := ih _ _ h
          exact (Ladder.keys_erase_key_sublist lad p).mem h2
        · simp only [hq2, if_false] at h
          have h2 := ih _ _ h
          rwa [Ladder.keys_set_key] at h2

theorem match_loop_sorted (sym : String) (o : Order) (lad : Ladder) (ps : List Rat)
    (hs : Ladder.Sorted lad) : Ladder.Sorted (match_loop sym o lad ps).2.1 := by
  induction ps generalizing o lad with
  | nil => simpa [match_loop] using hs
  | cons p ps ih =>
    by_cases h1 : o.is_fully_filled
    · simpa [match_loop, h1] using hs
    · simp only [Bool.not_eq_true] at h1
      cases hlk : Ladder.lookup lad p with
      | none =>
        simp only [match_loop, h1, Bool.false_eq_true, if_false, hlk]
        exact ih o lad hs
      | some queue =>
        simp only [match_loop, h1, Bool.false_eq_true, if_false, hlk]
        by_cases hq2 : (fill_level sym p o queue).2.1 = []
        · simp only [hq2, eq_self_iff_true, if_true]
          exact ih _ _ (Ladder.sorted_erase_key p hs)
        · simp only [hq2, if_false]
          exact ih _ _ (Ladder.sorted_set_key p _ hs)

theorem match_loop_lookup_none (sym : String) (o : Order) (lad : Ladder) (ps : List Rat)
    (k : Rat) (h : Ladder.lookup lad k = none) :
    Ladder.lookup (match_loop sym o lad ps).2.1 k = none := by
  rw [Ladder.lookup_eq_none_iff] at h ⊢
  intro hmem
  exact h (match_loop_keys_mem sym o lad ps k hmem)

theorem sorted_keys_nodup {l : Ladder} (h : Ladder.Sorted l) : (Ladder.keys l).Nodup :=
  h.imp ne_of_lt

theorem lookup_erase_key_self {l : Ladder} (p : Rat) (q : List Order)
    (hs : Ladder.Sorted l) (h : Ladder.lookup l p = some q) :
    Ladder.lookup (Ladder.erase_key l p) p = none := by
  obtain ⟨pre, post, hdec, hpre, herase, hset⟩ := Ladder.lookup_decomp l p q h
  have hnd := sorted_keys_nodup hs
  rw [hdec] at hnd
  have hpost : p ∉ Ladder.keys post := by
    intro hmem
    simp only [Ladder.keys, List.map_append, List.map_cons] at hnd
    rcases List.nodup_append.1 hnd with ⟨-, hnd2, -⟩
    rcases List.nodup_cons.1 hnd2 with ⟨hp2, -⟩
    exact hp2 (by simpa [Ladder.keys] using hmem)
  rw [herase, Ladder.lookup_eq_none_iff]
  simp only [Ladder.keys, List.map_append, List.mem_append]
  rintro (hmem | hmem)
  · exact hpre (by simpa [Ladder.keys] using hmem)
  · exact hpost (by simpa [Ladder.keys] using hmem)

theorem match_loop_candidates_removed (sym : String) (o : Order) (lad : Ladder)
    (ps : List Rat) (hs : Ladder.Sorted lad)
    (h : (match_loop sym o lad ps).1.is_fully_filled = false) :
    ∀ p ∈ ps, Ladder.lookup (match_loop sym o lad ps).2.1 p = none := by
  induction ps generalizing o lad with
  | nil => simp
  | cons p ps ih =>
    by_cases h1 : o.is_fully_filled
    · exfalso
      rw [match_loop_of_filled sym o lad (p :: ps) h1] at h
      rw [h] at h1
      exact Bool.false_ne_true h1
    · simp only [Bool.not_eq_true] at h1
      cases hlk : Ladder.lookup lad p with
      | none =>
        intro k hk
        simp only [match_loop, h1, Bool.false_eq_true, if_false, hlk] at h ⊢
        rcases List.mem_cons.1 hk with hk | hk
        · subst hk
          exact match_loop_lookup_none sym o lad ps k hlk
        · exact ih o lad hs h k hk
      | some queue =>
        have hnotf : (fill_level sym p o queue).1.is_fully_filled = false := by
          by_cases hf : (fill_level sym p o queue).1.is_fully_filled
          · exfalso
            simp only [match_loop, h1, Bool.false_eq_true, if_false, hlk] at h
            rw [match_loop_of_filled sym _ _ ps hf] at h
            rw [h] at hf
            exact Bool.false_ne_true hf
          · simpa using hf
        have hq2 := fill_level_not_filled_empty sym p o queue hnotf
        intro k hk
        simp only [match_loop, h1, Bool.false_eq_true, if_false, hlk, hq2,
          eq_self_iff_true, if_true] at h ⊢
        rcases List.mem_cons.1 hk with hk | hk
        · subst hk
          have hbase := lookup_erase_key_self k queue hs hlk
          exact match_loop_lookup_none sym _ _ ps k hbase
        · exact ih _ _ (Ladder.sorted_erase_key p hs) h k hk

theorem fill_level_queue_rem_nonneg (sym : String) (p : Rat) (o : Order) (q : List Order)
    (hq : ∀ r ∈ q, 0 ≤ r.remaining_quantity) :
    ∀ r2 ∈ (fill_level sym p o q).2.1, 0 ≤ r2.remaining_quantity := by
  induction q generalizing o with
  | nil =>
    intro r2 hr2
    simp [fill_level] at hr2
  | cons resting rest ih =>
    by_cases h1 : o.is_fully_filled
    · intro r2 hr2
      simp only [fill_level, h1, if_true] at hr2
      exact hq r2 hr2
    · simp only [Bool.not_eq_true] at h1
      by_cases h2 : (({ resting with filled_quantity := resting.filled_quantity + min o.remaining_quantity resting.remaining_quantity } : Order)).is_fully_filled
      · intro r2 hr2
        simp only [fill_level, h1, Bool.false_eq_true, if_false, h2, if_true] at hr2
        exact ih _ (fun r hr => hq r (List.mem_cons_of_mem _ hr)) r2 hr2
      · simp only [Bool.not_eq_true] at h2
        intro r2 hr2
        simp only [fill_level, h1, Bool.false_eq_true, if_false, h2, if_false] at hr2
        rcases List.mem_cons.1 hr2 with hr2 | hr2
        · subst hr2
          have hlt2 : resting.filled_quantity + min o.remaining_quantity resting.remaining_quantity < resting.quantity := by
            have := (Order.not_fully_filled_iff _).1 h2
            simpa using this
          show 0 ≤ resting.quantity - (resting.filled_quantity + min o.remaining_quantity resting.remaining_quantity)
          linarith [hlt2]
        · exact hq r2 (List.mem_cons_of_mem _ hr2)

theorem lookup_orders_subset {lad : Ladder} {p : Rat} {queue : List Order}
    (h : Ladder.lookup lad p = some queue) :
    ∀ r ∈ queue, r ∈ Ladder.orders lad := by
  intro r hr
  exact (Ladder.mem_orders_iff lad r).2 ⟨(p, queue), Ladder.lookup_mem lad p queue h, hr⟩

theorem step_ladder_orders (sym : String) (p : Rat) (o : Order) (lad : Ladder)
    (queue : List Order) (hlk : Ladder.lookup lad p = some queue) :
    ∀ r2 ∈ Ladder.orders
      (if (fill_level sym p o queue).2.1 = [] then Ladder.erase_key lad p
       else Ladder.set_key lad p (fill_level sym p o queue).2.1),
      r2 ∈ (fill_level sym p o queue).2.1 ∨ r2 ∈ Ladder.orders lad := by
  intro r2 hr2
  by_cases hq2 : (fill_level sym p o queue).2.1 = []
  · simp only [hq2, eq_self_iff_true, if_true] at hr2
    exact Or.inr (Ladder.mem_orders_erase_key lad p r2 hr2)
  · simp only [hq2, if_false] at hr2
    exact Ladder.mem_orders_set_key lad p _ r2 hr2

theorem match_loop_orders_trace (sym : String) (o : Order) (lad : Ladder) (ps : List Rat) :
    ∀ r2 ∈ Ladder.orders (match_loop sym o lad ps).2.1,
      ∃ r ∈ Ladder.orders lad, r2.id = r.id ∧ r2.price = r.price ∧
        r2.quantity = r.quantity := by
  induction ps generalizing o lad with
  | nil =>
    intro r2 hr2
    simp only [match_loop] at hr2
    exact ⟨r2, hr2, rfl, rfl, rfl⟩
  | cons p ps ih =>
    by_cases h1 : o.is_fully_filled
    · intro r2 hr2
      simp only [match_loop, h1, if_true] at hr2
      exact ⟨r2, hr2, rfl, rfl, rfl⟩
    · simp only [Bool.not_eq_true] at h1
      cases hlk : Ladder.lookup lad p with
      | none =>
        intro r2 hr2
        simp only [match_loop, h1, Bool.false_eq_true, if_false, hlk] at hr2
        exact ih o lad r2 hr2
      | some queue =>
        intro r2 hr2
        simp only [match_loop, h1, Bool.false_eq_true, if_false, hlk] at hr2
        obtain ⟨rmid, hrmid, hf1, hf2, hf3⟩ := ih _ _ r2 hr2
        rcases step_ladder_orders sym p o lad queue hlk rmid hrmid with hcase | hcase
        · obtain ⟨r, hr, hg1, hg2, hg3, -, -⟩ := fill_level_queue_mem sym p o queue rmid hcase
          exact ⟨r, lookup_orders_subset hlk r hr, hf1.trans hg1, hf2.trans hg2, hf3.trans hg3⟩
        · exact ⟨rmid, hcase, hf1, hf2, hf3⟩

theorem match_loop_orders_rem_pos (sym : String) (o : Order) (lad : Ladder) (ps : List Rat)
    (hq : ∀ r ∈ Ladder.orders lad, 0 < r.remaining_quantity) :
    ∀ r2 ∈ Ladder.orders (match_loop sym o lad ps).2.1, 0 < r2.remaining_quantity := by
  induction ps generalizing o lad with
  | nil =>
    intro r2 hr2
    simp only [match_loop] at hr2
    exact hq r2 hr2
  | cons p ps ih =>
    by_cases h1 : o.is_fully_filled
    · intro r2 hr2
      simp only [match_loop, h1, if_true] at hr2
      exact hq r2 hr2
    · simp only [Bool.not_eq_true] at h1
      cases hlk : Ladder.lookup lad p with
      | none =>
        intro r2 hr2
        simp only [match_loop, h1, Bool.false_eq_true, if_false, hlk] at hr2
        exact ih o lad hq r2 hr2
      | some queue =>
        intro r2 hr2
        simp only [match_loop, h1, Bool.false_eq_true, if_false, hlk] at hr2
        refine ih _ _ ?_ r2 hr2
        intro r3 hr3
        rcases step_ladder_orders sym p o lad queue hlk r3 hr3 with hcase | hcase
        · exact fill_level_queue_rem_pos sym p o queue
            (fun r hr => hq r (lookup_orders_subset hlk r hr)) r3 hcase
        · exact hq r3 hcase

theorem match_loop_orders_rem_nonneg (sym : String) (o : Order) (lad : Ladder)
    (ps : List Rat) (hq : ∀ r ∈ Ladder.orders lad, 0 ≤ r.remaining_quantity) :
    ∀ r2 ∈ Ladder.orders (match_loop sym o lad ps).2.1, 0 ≤ r2.remaining_quantity := by
  induction ps generalizing o lad with
  | nil =>
    intro r2 hr2
    simp only [match_loop] at hr2
    exact hq r2 hr2
  | cons p ps ih =>
    by_cases h1 : o.is_fully_filled
    · intro r2 hr2
      simp only [match_loop, h1, if_true] at hr2
      exact hq r2 hr2
    · simp only [Bool.not_eq_true] at h1
      cases hlk : Ladder.lookup lad p with
      | none =>
        intro r2 hr2
        simp only [match_loop, h1, Bool.false_eq_true, if_false, hlk] at hr2
        exact ih o lad hq r2 hr2
      | some queue =>
        intro r2 hr2
        simp only [match_loop, h1, Bool.false_eq_true, if_false, hlk] at hr2
        refine ih _ _ ?_ r2 hr2
        intro r3 hr3
        rcases step_ladder_orders sym p o lad queue hlk r3 hr3 with hcase | hcase
        · exact fill_level_queue_rem_nonneg sym p o queue
            (fun r hr => hq r (lookup_orders_subset hlk r hr)) r3 hcase
        · exact hq r3 hcase

theorem match_loop_levels_ne (sym : String) (o : Order) (lad : Ladder) (ps : List Rat)
    (hne : ∀ e ∈ lad, e.2 ≠ []) :
    ∀ e ∈ (match_loop sym o lad ps).2.1, e.2 ≠ [] := by
  induction ps generalizing o lad with
  | nil =>
    intro e he
    simp only [match_loop] at he
    exact hne e he
  | cons p ps ih =>
    by_cases h1 : o.is_fully_filled
    · intro e he
      simp only [match_loop, h1, if_true] at he
      exact hne e he
    · simp only [Bool.not_eq_true] at h1
      cases hlk : Ladder.lookup lad p with
      | none =>
        intro e he
        simp only [match_loop, h1, Bool.false_eq_true, if_false, hlk] at he
        exact ih o lad hne e he
      | some queue =>
        intro e he
        simp only [match_loop, h1, Bool.false_eq_true, if_false, hlk] at he
        by_cases hq2 : (fill_level sym p o queue).2.1 = []
        · simp only [hq2, eq_self_iff_true, if_true] at he
          refine ih _ _ ?_ e he
          intro e2 he2
          exact hne e2 ((Ladder.erase_key_sublist lad p).mem he2)
        · simp only [hq2, if_false] at he
          refine ih _ _ ?_ e he
          intro e2 he2
          rcases Ladder.mem_set_key lad p _ e2 he2 with hcase | hcase
          · exact hne e2 hcase
          · rw [hcase]
            exact hq2

theorem match_loop_trades_pos (sym : String) (o : Order) (lad : Ladder) (ps : List Rat)
    (hq : ∀ r ∈ Ladder.orders lad, 0 < r.remaining_quantity) :
    ∀ t ∈ (match_loop sym o lad ps).2.2, 0 < t.quantity := by
  induction ps generalizing o lad with
  | nil =>
    intro t ht
    simp [match_loop] at ht
  | cons p ps ih =>
    by_cases h1 : o.is_fully_filled
    · intro t ht
      simp [match_loop, h1] at ht
    · simp only [Bool.not_eq_true] at h1
      cases hlk : Ladder.lookup lad p with
      | none =>
        intro t ht
        simp only [match_loop, h1, Bool.false_eq_true, if_false, hlk] at ht
        exact ih o lad hq t ht
      | some queue =>
        intro t ht
        simp only [match_loop, h1, Bool.false_eq_true, if_false, hlk, List.mem_append] at ht
        rcases ht with ht | ht
        · exact fill_level_trades_pos sym p o queue
            (fun r hr => hq r (lookup_orders_subset hlk r hr)) t ht
        · refine ih _ _ ?_ t ht
          intro r3 hr3
          rcases step_ladder_orders sym p o lad queue hlk r3 hr3 with hcase | hcase
          · exact fill_level_queue_rem_pos sym p o queue
              (fun r hr => hq r (lookup_orders_subset hlk r hr)) r3 hcase
          · exact hq r3 hcase

theorem match_loop_trades_nonneg (sym : String) (o : Order) (lad : Ladder) (ps : List Rat)
    (hq : ∀ r ∈ Ladder.orders lad, 0 ≤ r.remaining_quantity) :
    ∀ t ∈ (match_loop sym o lad ps).2.2, 0 ≤ t.quantity := by
  induction ps generalizing o lad with
  | nil =>
    intro t ht
    simp [match_loop] at ht
  | cons p ps ih =>
    by_cases h1 : o.is_fully_filled
    · intro t ht
      simp [match_loop, h1] at ht
    · simp only [Bool.not_eq_true] at h1
      cases hlk : Ladder.lookup lad p with
      | none =>
        intro t ht
        simp only [match_loop, h1, Bool.false_eq_true, if_false, hlk] at ht
        exact ih o lad hq t ht
      | some queue =>
        intro t ht
        simp only [match_loop, h1, Bool.false_eq_true, if_false, hlk, List.mem_append] at ht
        rcases ht with ht | ht
        · exact fill_level_trades_nonneg sym p o queue
            (fun r hr => hq r (lookup_orders_subset hlk r hr)) t ht
        · refine ih _ _ ?_ t ht
          intro r3 hr3
          rcases step_ladder_orders sym p o lad queue hlk r3 hr3 with hcase | hcase
          · exact fill_level_queue_rem_nonneg sym p o queue
              (fun r hr => hq r (lookup_orders_subset hlk r hr)) r3 hcase
          · exact hq r3 hcase

theorem lookup_well_keyed {lad : Ladder} {p : Rat} {queue : List Order}
    (hw : Ladder.well_keyed lad) (h : Ladder.lookup lad p = some queue) :
    ∀ r ∈ queue, r.price = p :=
  fun r hr => hw (p, queue) (Ladder.lookup_mem lad p queue h) r hr

theorem step_ladder_well_keyed (sym : String) (p : Rat) (o : Order) (lad : Ladder)
    (queue : List Order) (hw : Ladder.well_keyed lad)
    (hlk : Ladder.lookup lad p = some queue) :
    Ladder.well_keyed
      (if (fill_level sym p o queue).2.1 = [] then Ladder.erase_key lad p
       else Ladder.set_key lad p (fill_level sym p o queue).2.1) := by
  by_cases hq2 : (fill_level sym p o queue).2.1 = []
  · simp only [hq2, eq_self_iff_true, if_true]
    intro e he r hr
    exact hw e ((Ladder.erase_key_sublist lad p).mem he) r hr
  · simp only [hq2, if_false]
    intro e he r hr
    rcases Ladder.mem_set_key lad p _ e he with hcase | hcase
    · exact hw e hcase r hr
    · rw [hcase] at hr ⊢
      obtain ⟨r0, hr0, hid, hprice, -, -, -⟩ := fill_level_queue_mem sym p o queue r hr
      rw [hprice, lookup_well_keyed hw hlk r0 hr0]

theorem match_loop_trades_trace (sym : String) (o : Order) (lad : Ladder) (ps : List Rat)
    (hw : Ladder.well_keyed lad) :
    ∀ t ∈ (match_loop sym o lad ps).2.2,
      t.symbol = sym ∧
      (o.side = Side.Buy → t.buy_order_id = o.id ∧
        ∃ r ∈ Ladder.orders lad, t.sell_order_id = r.id ∧ t.price = r.price) ∧
      (o.side = Side.Sell → t.sell_order_id = o.id ∧
        ∃ r ∈ Ladder.orders lad, t.buy_order_id = r.id ∧ t.price = r.price) := by
  induction ps generalizing o lad with
  | nil =>
    intro t ht
    simp [match_loop] at ht
  | cons p ps ih =>
    by_cases h1 : o.is_fully_filled
    · intro t ht
      simp [match_loop, h1] at ht
    · simp only [Bool.not_eq_true] at h1
      cases hlk : Ladder.lookup lad p with
      | none =>
        intro t ht
        simp only [match_loop, h1, Bool.false_eq_true, if_false, hlk] at ht
        exact ih o lad hw t ht
      | some queue =>
        intro t ht
        simp only [match_loop, h1, Bool.false_eq_true, if_false, hlk, List.mem_append] at ht
        rcases ht with ht | ht
        · obtain ⟨hsym, hprice, hbuy, hsell⟩ := fill_level_trades_mem sym p o queue t ht
          refine ⟨hsym, fun hs => ?_, fun hs => ?_⟩
          · obtain ⟨hid, r, hr, hrid⟩ := hbuy hs
            refine ⟨hid, r, lookup_orders_subset hlk r hr, hrid, ?_⟩
            rw [hprice, lookup_well_keyed hw hlk r hr]
          · obtain ⟨hid, r, hr, hrid⟩ := hsell hs
            refine ⟨hid, r, lookup_orders_subset hlk r hr, hrid, ?_⟩
            rw [hprice, lookup_well_keyed hw hlk r hr]
        · have hw2 := step_ladder_well_keyed sym p o lad queue hw hlk
          obtain ⟨hsym, hbuy, hsell⟩ := ih _ _ hw2 t ht
          have hside := (fill_level_fields sym p o queue).2.1
          have hid0 := (fill_level_fields sym p o queue).1
          refine ⟨hsym, fun hs => ?_, fun hs => ?_⟩
          · obtain ⟨hid, r2, hr2, hrid, hrprice⟩ := hbuy (by rw [hside, hs])
            refine ⟨by rw [hid, hid0], ?_⟩
            rcases step_ladder_orders sym p o lad queue hlk r2 hr2 with hcase | hcase
            · obtain ⟨r, hr, hg1, hg2, -, -, -⟩ := fill_level_queue_mem sym p o queue r2 hcase
              exact ⟨r, lookup_orders_subset hlk r hr, by rw [hrid, hg1],
                by rw [hrprice, hg2]⟩
            · exact ⟨r2, hcase, hrid, hrprice⟩
          · obtain ⟨hid, r2, hr2, hrid, hrprice⟩ := hsell (by rw [hside, hs])
            refine ⟨by rw [hid, hid0], ?_⟩
            rcases step_ladder_orders sym p o lad queue hlk r2 hr2 with hcase | hcase
            · obtain ⟨r, hr, hg1, hg2, -, -, -⟩ := fill_level_queue_mem sym p o queue r2 hcase
              exact ⟨r, lookup_orders_subset hlk r hr, by rw [hrid, hg1],
                by rw [hrprice, hg2]⟩
            · exact ⟨r2, hcase, hrid, hrprice⟩

end OrderBook

end QuantumFlow

namespace QuantumFlow

/-- C9: `OrderBook::match_order` mutates only the ladder opposite to the
incoming order's side — the book's symbol is always unchanged, the bid
ladder is unchanged for a Buy aggressor and the ask ladder is unchanged for
a Sell aggressor. -/
theorem match_order_frame (b : OrderBook) (o : Order) :
    (b.match_order o).2.1.symbol = b.symbol ∧
    (o.side = Side.Buy → (b.match_order o).2.1.bids = b.bids) ∧
    (o.side = Side.Sell → (b.match_order o).2.1.asks = b.asks) := by
  cases hs : o.side
  · simp [OrderBook.match_order, hs]
  · simp [OrderBook.match_order, hs]

/-- C9 witness: a concrete Buy aggressor against a one-level ask book leaves
the bid ladder and the symbol untouched. -/
theorem match_order_frame_witness :
    ((OrderBook.add_order (OrderBook.new "S") (mk_order 1 "S" Side.Sell 99 2)).match_order
        (mk_order 2 "S" Side.Buy 100 1)).2.1.symbol =
      (OrderBook.add_order (OrderBook.new "S") (mk_order 1 "S" Side.Sell 99 2)).symbol ∧
    ((OrderBook.add_order (OrderBook.new "S") (mk_order 1 "S" Side.Sell 99 2)).match_order
        (mk_order 2 "S" Side.Buy 100 1)).2.1.bids =
      (OrderBook.add_order (OrderBook.new "S") (mk_order 1 "S" Side.Sell 99 2)).bids :=
  ⟨(match_order_frame (OrderBook.add_order (OrderBook.new "S") (mk_order 1 "S" Side.Sell 99 2))
      (mk_order 2 "S" Side.Buy 100 1)).1,
   (match_order_frame (OrderBook.add_order (OrderBook.new "S") (mk_order 1 "S" Side.Sell 99 2))
      (mk_order 2 "S" Side.Buy 100 1)).2.1 rfl⟩

/-- C10: `OrderBook::add_order` unconditionally appends at the tail of the
FIFO at `order.price` on the order's own side, creating the level if
missing and leaving every other level and the opposite ladder unchanged —
no crossing, duplicate-id or remaining-quantity check; consequently adding
a Buy at or above the best ask directly (bypassing match) leaves the book
crossed, as the concrete book in the last conjunct shows
(`best_ask ≤ best_bid`). -/
theorem add_order_appends_unconditionally :
    (∀ (b : OrderBook) (o : Order), o.side = Side.Buy → Ladder.Sorted b.bids →
      Ladder.lookup (b.add_order o).bids o.price =
          some (((Ladder.lookup b.bids o.price).getD []) ++ [o]) ∧
        (∀ p, p ≠ o.price → Ladder.lookup (b.add_order o).bids p = Ladder.lookup b.bids p) ∧
        (b.add_order o).asks = b.asks ∧ (b.add_order o).symbol = b.symbol) ∧
    (∀ (b : OrderBook) (o : Order), o.side = Side.Sell → Ladder.Sorted b.asks →
      Ladder.lookup (b.add_order o).asks o.price =
          some (((Ladder.lookup b.asks o.price).getD []) ++ [o]) ∧
        (∀ p, p ≠ o.price → Ladder.lookup (b.add_order o).asks p = Ladder.lookup b.asks p) ∧
        (b.add_order o).bids = b.bids ∧ (b.add_order o).symbol = b.symbol) ∧
    (∃ bb ba,
      (OrderBook.add_order (OrderBook.add_order (OrderBook.new "S")
          (mk_order 1 "S" Side.Sell 90 1)) (mk_order 2 "S" Side.Buy 100 1)).get_best_bid =
        some bb ∧
      (OrderBook.add_order (OrderBook.add_order (OrderBook.new "S")
          (mk_order 1 "S" Side.Sell 90 1)) (mk_order 2 "S" Side.Buy 100 1)).get_best_ask =
        some ba ∧ ba ≤ bb) := by
  refine ⟨?_, ?_, ?_⟩
  · intro b o hs hsort
    refine ⟨?_, ?_, ?_, ?_⟩
    · rw [show (b.add_order o).bids = Ladder.insert_append b.bids o.price o from by
        simp [OrderBook.add_order, hs]]
      rw [Ladder.lookup_insert_append hsort]
      simp
    · intro p hp
      rw [show (b.add_order o).bids = Ladder.insert_append b.bids o.price o from by
        simp [OrderBook.add_order, hs]]
      rw [Ladder.lookup_insert_append hsort]
      simp [hp]
    · simp [OrderBook.add_order, hs]
    · simp [OrderBook.add_order, hs]
  · intro b o hs hsort
    refine ⟨?_, ?_, ?_, ?_⟩
    · rw [show (b.add_order o).asks = Ladder.insert_append b.asks o.price o from by
        simp [OrderBook.add_order, hs]]
      rw [Ladder.lookup_insert_append hsort]
      simp
    · intro p hp
      rw [show (b.add_order o).asks = Ladder.insert_append b.asks o.price o from by
        simp [OrderBook.add_order, hs]]
      rw [Ladder.lookup_insert_append hsort]
      simp [hp]
    · simp [OrderBook.add_order, hs]
    · simp [OrderBook.add_order, hs]
  · exact ⟨100, 90, by decide, by decide, by decide⟩

/-- C10 witness: appending a Buy into an empty book creates the level
`[order]` at its price. -/
theorem add_order_appends_unconditionally_witness :
    Ladder.lookup ((OrderBook.new "S").add_order (mk_order 2 "S" Side.Buy 100 1)).bids
        (mk_order 2 "S" Side.Buy 100 1).price =
      some (((Ladder.lookup (OrderBook.new "S").bids (mk_order 2 "S" Side.Buy 100 1).price).getD [])
        ++ [mk_order 2 "S" Side.Buy 100 1]) :=
  (add_order_appends_unconditionally.1 (OrderBook.new "S") (mk_order 2 "S" Side.Buy 100 1)
    rfl (by simp [Ladder.Sorted, Ladder.keys, OrderBook.new])).1

/-- C6: `RiskManager::check_order` applies exactly the three checks in
order — order size, projected position magnitude (with `abs` as the spec
words it), daily loss — rejecting at the first failure, whenever the
current position quantity and the order quantity are non-negative (which
`Position::update` and `Order::new` guarantee in this program). -/
theorem check_order_correct (limits : RiskLimits) (position : Position) (daily_pnl : Rat)
    (o : Order) (h1 : 0 ≤ position.quantity) (h2 : 0 ≤ o.quantity) :
    check_order limits position daily_pnl o = check_order_spec limits position daily_pnl o := by
  unfold check_order check_order_spec projected_position_size_spec
  cases hs : o.side
  · have habs : |position.quantity + o.quantity| = position.quantity + o.quantity :=
      abs_of_nonneg (by linarith)
    simp [hs, habs]
  · simp [hs]

/-- C6 witness: a concrete order over the size limit is rejected with
`OrderSize` by both the code and the spec-worded chain. -/
theorem check_order_correct_witness :
    check_order RiskLimits.default (Position.new "S") 0 (mk_order 1 "S" Side.Buy 50 50) =
      check_order_spec RiskLimits.default (Position.new "S") 0 (mk_order 1 "S" Side.Buy 50 50) ∧
    check_order RiskLimits.default (Position.new "S") 0 (mk_order 1 "S" Side.Buy 50 50) =
      Except.error RiskError.OrderSize :=
  ⟨check_order_correct RiskLimits.default (Position.new "S") 0 (mk_order 1 "S" Side.Buy 50 50)
      (by decide) (by decide), by rfl⟩

/-- C7 counterexample: the claim admits updates at price `0` ("non-negative
price"), but one Buy at price `0`, quantity `1` — a sequence allowed by the
claim — yields `average_price = 0` with `quantity = 1 ≠ 0`, refuting the
claimed invariant `average_price = 0 ↔ quantity = 0`. -/
theorem position_invariant_counterexample :
    (0 : Rat) ≤ 0 ∧ (0 : Rat) < 1 ∧
    ((Position.new "S").update Side.Buy 0 1).average_price = 0 ∧
    ¬ (((Position.new "S").update Side.Buy 0 1).average_price = 0 ↔
        ((Position.new "S").update Side.Buy 0 1).quantity = 0) := by
  decide

/-- C7 amended: for every position reachable from the initial position by
updates with positive price and positive quantity, `average_price = 0 ↔
quantity = 0` (and both are non-negative); a Sell driving the quantity to
`≤ 0` collapses quantity and average to `0`; and `realized_pnl` changes
exactly by `(price − average_price)·qty` on sells against a positive
position and is unchanged otherwise. -/
theorem position_invariant (p : Position) (h : PosReachable p) :
    (0 ≤ p.quantity ∧ 0 ≤ p.average_price ∧ (p.average_price = 0 ↔ p.quantity = 0)) ∧
    (∀ price quantity : Rat, p.quantity - quantity ≤ 0 →
      (p.update Side.Sell price quantity).quantity = 0 ∧
      (p.update Side.Sell price quantity).average_price = 0) ∧
    (∀ (side : Side) (price quantity : Rat),
      (p.update side price quantity).realized_pnl = p.realized_pnl +
        (if side = Side.Sell ∧ 0 < p.quantity then (price - p.average_price) * quantity
         else 0)) := by
  refine ⟨?_, ?_, ?_⟩
  · induction h with
    | base symbol => simp [Position.new]
    | step p side price quantity hp hprice hqty ih =>
      obtain ⟨hq0, ha0, hiff⟩ := ih
      cases side
      · have hq2 : 0 < p.quantity + quantity := by linarith
        have hnum : 0 < p.average_price * p.quantity + price * quantity := by
          have hA : 0 ≤ p.average_price * p.quantity := mul_nonneg ha0 hq0
          have hB : 0 < price * quantity := mul_pos hprice hqty
          linarith
        have havg : 0 < (p.average_price * p.quantity + price * quantity) /
            (p.quantity + quantity) := div_pos hnum hq2
        simp only [Position.update, hq2, if_true]
        refine ⟨by linarith, le_of_lt havg, ?_, ?_⟩
        · intro hx
          exact absurd hx (ne_of_gt havg)
        · intro hx
          exact absurd hx (ne_of_gt hq2)
      · simp only [Position.update]
        by_cases hpos : 0 < p.quantity
        · by_cases hle : p.quantity - quantity ≤ 0
          · simp [hpos, hle]
          · have hgt : 0 < p.quantity - quantity := by
              have := not_le.1 hle
              linarith
            simp only [hpos, if_true, hle, if_false]
            refine ⟨by linarith, ha0, ?_, ?_⟩
            · intro hx
              exact absurd (hiff.1 hx) (ne_of_gt hpos)
            · intro hx
              exact absurd hx (ne_of_gt hgt)
        · have hle : p.quantity - quantity ≤ 0 := by
            have := not_lt.1 hpos
            linarith
          simp [hpos, hle]
  · intro price quantity hle
    simp only [Position.update]
    by_cases hpos : 0 < p.quantity
    · simp [hpos, hle]
    · simp [hpos, hle]
  · intro side price quantity
    cases side
    · by_cases h0 : 0 < p.quantity + quantity
      · simp [Position.update, h0]
      · simp [Position.update, h0]
    · by_cases hpos : 0 < p.quantity
      · by_cases hle : p.quantity - quantity ≤ 0
        · simp [Position.update, hpos, hle]
        · simp [Position.update, hpos, hle]
      · by_cases hle : p.quantity - quantity ≤ 0
        · simp [Position.update, hpos, hle]
        · simp [Position.update, hpos, hle]

/-- C7 amended witness: one positive-price Buy then a collapsing Sell; the
invariant holds at the reachable position. -/
theorem position_invariant_witness :
    0 ≤ ((Position.new "S").update Side.Buy 10 2).quantity ∧
    0 ≤ ((Position.new "S").update Side.Buy 10 2).average_price ∧
    (((Position.new "S").update Side.Buy 10 2).average_price = 0 ↔
      ((Position.new "S").update Side.Buy 10 2).quantity = 0) :=
  (position_invariant ((Position.new "S").update Side.Buy 10 2)
    (PosReachable.step (Position.new "S") Side.Buy 10 2 (PosReachable.base "S")
      (by decide) (by decide))).1

end QuantumFlow

namespace QuantumFlow

/-- C1: every trade emitted by `OrderBook::match_order` carries the resting
(passive) order's limit price, and the buy/sell order-id fields are
assigned to the buy-side and sell-side orders regardless of which side was
the aggressor.  The hypothesis is the book representation invariant that
each resting order is keyed under its own limit price (established by
`add_order`).  The witness instantiates a strictly price-improving
aggressor. -/
theorem match_order_passive_price (b : OrderBook) (o : Order)
    (hwb : Ladder.well_keyed b.bids) (hwa : Ladder.well_keyed b.asks) :
    ∀ t ∈ (b.match_order o).2.2,
      (o.side = Side.Buy → t.buy_order_id = o.id ∧
        ∃ r ∈ Ladder.orders b.asks, t.sell_order_id = r.id ∧ t.price = r.price) ∧
      (o.side = Side.Sell → t.sell_order_id = o.id ∧
        ∃ r ∈ Ladder.orders b.bids, t.buy_order_id = r.id ∧ t.price = r.price) := by
  intro t ht
  cases hs : o.side
  · rw [show (b.match_order o).2.2 =
        (OrderBook.match_loop b.symbol o b.asks (OrderBook.prices_to_match o b.asks)).2.2 from by
      simp [OrderBook.match_order, hs]] at ht
    have h := OrderBook.match_loop_trades_trace b.symbol o b.asks
      (OrderBook.prices_to_match o b.asks) hwa t ht
    exact ⟨fun _ => h.2.1 hs, fun hcon => Side.noConfusion hcon⟩
  · rw [show (b.match_order o).2.2 =
        (OrderBook.match_loop b.symbol o b.bids (OrderBook.prices_to_match o b.bids)).2.2 from by
      simp [OrderBook.match_order, hs]] at ht
    have h := OrderBook.match_loop_trades_trace b.symbol o b.bids
      (OrderBook.prices_to_match o b.bids) hwb t ht
    exact ⟨fun hcon => Side.noConfusion hcon, fun _ => h.2.2 hs⟩

/-- C1 witness: a Buy limited at 105 against a resting Sell at 99 trades at
the passive price 99 (price improvement to the aggressor), with the buy id
the aggressor's and the sell id the resting order's. -/
theorem match_order_passive_price_witness :
    (Trade.mk "S" 99 1 2 1).buy_order_id = (mk_order 2 "S" Side.Buy 105 1).id ∧
    ∃ r ∈ Ladder.orders
        (OrderBook.add_order (OrderBook.new "S") (mk_order 1 "S" Side.Sell 99 2)).asks,
      (Trade.mk "S" 99 1 2 1).sell_order_id = r.id ∧ (Trade.mk "S" 99 1 2 1).price = r.price :=
  (match_order_passive_price
    (OrderBook.add_order (OrderBook.new "S") (mk_order 1 "S" Side.Sell 99 2))
    (mk_order 2 "S" Side.Buy 105 1)
    (by unfold Ladder.well_keyed; decide)
    (by unfold Ladder.well_keyed; decide)
    (Trade.mk "S" 99 1 2 1) (by decide)).1 rfl

/-- C3: conservation through `OrderBook::match_order`.  The aggressor's
`filled_quantity` grows by exactly the summed trade quantities; the
opposite ladder's total remaining quantity shrinks by exactly the same
total (each trade adds its quantity to both sides, so total filled grows by
2Q per trade of quantity Q); every trade quantity is positive; and
`filled_quantity` never exceeds `quantity` on the aggressor or on any
resting order afterwards.  Hypotheses: the aggressor starts with
`filled ≤ quantity` and every resting order has positive remaining (the
book invariant). -/
theorem match_order_conservation (b : OrderBook) (o : Order)
    (hof : o.filled_quantity ≤ o.quantity)
    (hb : ∀ r ∈ Ladder.orders b.bids, 0 < r.remaining_quantity)
    (ha : ∀ r ∈ Ladder.orders b.asks, 0 < r.remaining_quantity) :
    (b.match_order o).1.filled_quantity =
      o.filled_quantity + OrderBook.trades_qty (b.match_order o).2.2 ∧
    (o.side = Side.Buy → Ladder.total_remaining (b.match_order o).2.1.asks +
      OrderBook.trades_qty (b.match_order o).2.2 = Ladder.total_remaining b.asks) ∧
    (o.side = Side.Sell → Ladder.total_remaining (b.match_order o).2.1.bids +
      OrderBook.trades_qty (b.match_order o).2.2 = Ladder.total_remaining b.bids) ∧
    (b.match_order o).1.filled_quantity ≤ (b.match_order o).1.quantity ∧
    (∀ r ∈ Ladder.orders (b.match_order o).2.1.bids, r.filled_quantity < r.quantity) ∧
    (∀ r ∈ Ladder.orders (b.match_order o).2.1.asks, r.filled_quantity < r.quantity) ∧
    (∀ t ∈ (b.match_order o).2.2, 0 < t.quantity) := by
  cases hs : o.side
  · simp only [OrderBook.match_order, hs]
    refine ⟨OrderBook.match_loop_filled_sum _ _ _ _, fun _ =>
      OrderBook.match_loop_total_remaining _ _ _ _,
      fun hcon => Side.noConfusion hcon, ?_, ?_, ?_, ?_⟩
    · rw [(OrderBook.match_loop_fields b.symbol o b.asks
        (OrderBook.prices_to_match o b.asks)).2.2.2.1]
      exact OrderBook.match_loop_filled_le _ _ _ _ hof
    · intro r hr
      rw [← Order.remaining_pos_iff]
      exact hb r hr
    · intro r hr
      rw [← Order.remaining_pos_iff]
      exact OrderBook.match_loop_orders_rem_pos _ _ _ _ ha r hr
    · exact OrderBook.match_loop_trades_pos _ _ _ _ ha
  · simp only [OrderBook.match_order, hs]
    refine ⟨OrderBook.match_loop_filled_sum _ _ _ _,
      fun hcon => Side.noConfusion hcon, fun _ =>
      OrderBook.match_loop_total_remaining _ _ _ _, ?_, ?_, ?_, ?_⟩
    · rw [(OrderBook.match_loop_fields b.symbol o b.bids
        (OrderBook.prices_to_match o b.bids)).2.2.2.1]
      exact OrderBook.match_loop_filled_le _ _ _ _ hof
    · intro r hr
      rw [← Order.remaining_pos_iff]
      exact OrderBook.match_loop_orders_rem_pos _ _ _ _ hb r hr
    · intro r hr
      rw [← Order.remaining_pos_iff]
      exact ha r hr
    · exact OrderBook.match_loop_trades_pos _ _ _ _ hb

/-- C3 witness: the partial-fill scenario (Buy 5 at 100 against asks 99×2
and 100×1) — the aggressor's filled quantity equals the summed trade
quantities and the book's remaining shrinks by the same amount. -/
theorem match_order_conservation_witness :
    ((OrderBook.add_order (OrderBook.add_order (OrderBook.new "S")
        (mk_order 1 "S" Side.Sell 99 2)) (mk_order 2 "S" Side.Sell 100 1)).match_order
          (mk_order 3 "S" Side.Buy 100 5)).1.filled_quantity =
      (mk_order 3 "S" Side.Buy 100 5).filled_quantity +
        OrderBook.trades_qty ((OrderBook.add_order (OrderBook.add_order (OrderBook.new "S")
          (mk_order 1 "S" Side.Sell 99 2)) (mk_order 2 "S" Side.Sell 100 1)).match_order
            (mk_order 3 "S" Side.Buy 100 5)).2.2 :=
  (match_order_conservation
    (OrderBook.add_order (OrderBook.add_order (OrderBook.new "S")
      (mk_order 1 "S" Side.Sell 99 2)) (mk_order 2 "S" Side.Sell 100 1))
    (mk_order 3 "S" Side.Buy 100 5) (by decide) (by decide) (by decide)).1

end QuantumFlow

namespace QuantumFlow

namespace OrderBook

theorem prices_to_match_buy_iff (o : Order) (opp : Ladder) (h : o.side = Side.Buy)
    (p : Rat) : p ∈ prices_to_match o opp ↔ p ∈ Ladder.keys opp ∧ p ≤ o.price := by
  simp only [prices_to_match, h]
  constructor
  · intro hp
    rcases List.mem_map.1 hp with ⟨e, he, rfl⟩
    rcases List.mem_filter.1 he with ⟨he2, hle⟩
    exact ⟨List.mem_map.2 ⟨e, he2, rfl⟩, by simpa using hle⟩
  · rintro ⟨hk, hle⟩
    rcases List.mem_map.1 hk with ⟨e, he, rfl⟩
    exact List.mem_map.2 ⟨e, List.mem_filter.2 ⟨he, by simpa using hle⟩, rfl⟩

theorem prices_to_match_sell_iff (o : Order) (opp : Ladder) (h : o.side = Side.Sell)
    (p : Rat) : p ∈ prices_to_match o opp ↔ p ∈ Ladder.keys opp ∧ o.price ≤ p := by
  simp only [prices_to_match, h]
  constructor
  · intro hp
    rcases List.mem_map.1 hp with ⟨e, he, rfl⟩
    rcases List.mem_filter.1 he with ⟨he2, hle⟩
    exact ⟨List.mem_map.2 ⟨e, List.mem_reverse.1 he2, rfl⟩, by simpa using hle⟩
  · rintro ⟨hk, hle⟩
    rcases List.mem_map.1 hk with ⟨e, he, rfl⟩
    exact List.mem_map.2 ⟨e, List.mem_filter.2 ⟨List.mem_reverse.2 he, by simpa using hle⟩, rfl⟩

theorem prices_to_match_buy_sorted (o : Order) (opp : Ladder) (h : o.side = Side.Buy)
    (hs : Ladder.Sorted opp) : (prices_to_match o opp).Pairwise (· < ·) := by
  simp only [prices_to_match, h]
  exact hs.sublist ((List.filter_sublist opp).map _)

theorem prices_to_match_sell_sorted (o : Order) (opp : Ladder) (h : o.side = Side.Sell)
    (hs : Ladder.Sorted opp) : (prices_to_match o opp).Pairwise (· > ·) := by
  simp only [prices_to_match, h]
  have hrev : (List.map (fun e => e.1) opp.reverse).Pairwise (· > ·) := by
    rw [List.map_reverse]
    exact List.pairwise_reverse.2 hs
  exact hrev.sublist ((List.filter_sublist opp.reverse).map _)

end OrderBook

/-- C2: price priority and intra-level FIFO.  (a) For a Buy aggressor the
candidate list `prices_to_match` consists of exactly the opposite-side keys
`≤ incoming.price`, in strictly ascending order; for a Sell aggressor,
exactly the keys `≥ incoming.price`, in strictly descending order
(`match_loop` consumes that list front to back).  (b) Within one level,
`fill_level` walks the FIFO head-to-tail: some prefix of length `n` is
fully filled — each such order receives a trade of exactly its remaining
quantity — and the surviving queue is the untouched suffix, possibly with
only its head order partially consumed; so an earlier-queued order is
always fully filled before any quantity of a later one is touched. -/
theorem match_price_time_priority :
    (∀ (o : Order) (opp : Ladder), o.side = Side.Buy →
      (∀ p, p ∈ OrderBook.prices_to_match o opp ↔ p ∈ Ladder.keys opp ∧ p ≤ o.price) ∧
      (Ladder.Sorted opp → (OrderBook.prices_to_match o opp).Pairwise (· < ·))) ∧
    (∀ (o : Order) (opp : Ladder), o.side = Side.Sell →
      (∀ p, p ∈ OrderBook.prices_to_match o opp ↔ p ∈ Ladder.keys opp ∧ o.price ≤ p) ∧
      (Ladder.Sorted opp → (OrderBook.prices_to_match o opp).Pairwise (· > ·))) ∧
    (∀ (sym : String) (p : Rat) (o : Order) (q : List Order),
      (∀ r ∈ q, 0 < r.remaining_quantity) →
      ∃ n, n ≤ q.length ∧
        (∀ r ∈ q.take n, ∃ t ∈ (OrderBook.fill_level sym p o q).2.2,
          OrderBook.resting_id o.side t = r.id ∧ t.quantity = r.remaining_quantity) ∧
        ((OrderBook.fill_level sym p o q).2.1 = q.drop n ∨
          ∃ r rest2 d, q.drop n = r :: rest2 ∧ 0 < d ∧ d < r.remaining_quantity ∧
            (OrderBook.fill_level sym p o q).2.1 =
              ({ r with filled_quantity := r.filled_quantity + d } : Order) :: rest2)) := by
  refine ⟨fun o opp h => ⟨OrderBook.prices_to_match_buy_iff o opp h,
      OrderBook.prices_to_match_buy_sorted o opp h⟩,
    fun o opp h => ⟨OrderBook.prices_to_match_sell_iff o opp h,
      OrderBook.prices_to_match_sell_sorted o opp h⟩,
    fun sym p o q hq => OrderBook.fill_level_fifo sym p o q hq⟩

/-- C2 witness: with asks at 99 and 101 and a Buy limited at 100, the
candidate prices are exactly the keys `≤ 100`; and the FIFO shape holds at
a concrete two-order level hit by a Buy for the head's full quantity: the
head (earlier-added) order is consumed exactly and the later order is
untouched. -/
theorem match_price_time_priority_witness :
    (((99 : Rat) ∈ OrderBook.prices_to_match (mk_order 3 "S" Side.Buy 100 1)
        [(99, [mk_order 1 "S" Side.Sell 99 1]), (101, [mk_order 2 "S" Side.Sell 101 1])] ↔
      (99 : Rat) ∈ Ladder.keys
        [(99, [mk_order 1 "S" Side.Sell 99 1]), (101, [mk_order 2 "S" Side.Sell 101 1])] ∧
      (99 : Rat) ≤ (mk_order 3 "S" Side.Buy 100 1).price)) ∧
    (∃ n, n ≤ [mk_order 1 "S" Side.Sell 50 1, mk_order 2 "S" Side.Sell 50 1].length ∧
      (∀ r ∈ [mk_order 1 "S" Side.Sell 50 1, mk_order 2 "S" Side.Sell 50 1].take n,
        ∃ t ∈ (OrderBook.fill_level "S" 50 (mk_order 3 "S" Side.Buy 50 1)
          [mk_order 1 "S" Side.Sell 50 1, mk_order 2 "S" Side.Sell 50 1]).2.2,
          OrderBook.resting_id (mk_order 3 "S" Side.Buy 50 1).side t = r.id ∧
          t.quantity = r.remaining_quantity) ∧
      ((OrderBook.fill_level "S" 50 (mk_order 3 "S" Side.Buy 50 1)
          [mk_order 1 "S" Side.Sell 50 1, mk_order 2 "S" Side.Sell 50 1]).2.1 =
        [mk_order 1 "S" Side.Sell 50 1, mk_order 2 "S" Side.Sell 50 1].drop n ∨
        ∃ r rest2 d,
          [mk_order 1 "S" Side.Sell 50 1, mk_order 2 "S" Side.Sell 50 1].drop n = r :: rest2 ∧
          0 < d ∧ d < r.remaining_quantity ∧
          (OrderBook.fill_level "S" 50 (mk_order 3 "S" Side.Buy 50 1)
            [mk_order 1 "S" Side.Sell 50 1, mk_order 2 "S" Side.Sell 50 1]).2.1 =
            ({ r with filled_quantity := r.filled_quantity + d } : Order) :: rest2)) :=
  ⟨(match_price_time_priority.1 (mk_order 3 "S" Side.Buy 100 1)
      [(99, [mk_order 1 "S" Side.Sell 99 1]), (101, [mk_order 2 "S" Side.Sell 101 1])] rfl).1 99,
   match_price_time_priority.2.2 "S" 50 (mk_order 3 "S" Side.Buy 50 1)
      [mk_order 1 "S" Side.Sell 50 1, mk_order 2 "S" Side.Sell 50 1] (by decide)⟩

end QuantumFlow

namespace QuantumFlow

namespace OrderBook

theorem match_order_props (b : OrderBook) (o : Order) :
    (b.match_order o).1.quantity = o.quantity ∧
    (b.match_order o).1.filled_quantity =
      o.filled_quantity + trades_qty (b.match_order o).2.2 ∧
    (b.match_order o).1.id = o.id ∧ (b.match_order o).1.side = o.side ∧
    (b.match_order o).1.price = o.price ∧ (b.match_order o).1.status = o.status := by
  cases hs : o.side
  · have hf := match_loop_fields b.symbol o b.asks (prices_to_match o b.asks)
    have hsum := match_loop_filled_sum b.symbol o b.asks (prices_to_match o b.asks)
    rw [hs] at hf
    simp only [match_order, hs]
    exact ⟨hf.2.2.2.1, hsum, hf.1, hf.2.1, hf.2.2.1, hf.2.2.2.2.1⟩
  · have hf := match_loop_fields b.symbol o b.bids (prices_to_match o b.bids)
    have hsum := match_loop_filled_sum b.symbol o b.bids (prices_to_match o b.bids)
    rw [hs] at hf
    simp only [match_order, hs]
    exact ⟨hf.2.2.2.1, hsum, hf.1, hf.2.1, hf.2.2.1, hf.2.2.2.2.1⟩

theorem match_order_filled_le (b : OrderBook) (o : Order)
    (h : o.filled_quantity ≤ o.quantity) :
    (b.match_order o).1.filled_quantity ≤ o.quantity := by
  cases hs : o.side
  · simp only [match_order, hs]
    exact match_loop_filled_le _ _ _ _ h
  · simp only [match_order, hs]
    exact match_loop_filled_le _ _ _ _ h

theorem match_order_trades_nonneg (b : OrderBook) (o : Order)
    (hb : ∀ r ∈ Ladder.orders b.bids, 0 ≤ r.remaining_quantity)
    (ha : ∀ r ∈ Ladder.orders b.asks, 0 ≤ r.remaining_quantity) :
    ∀ t ∈ (b.match_order o).2.2, 0 ≤ t.quantity := by
  cases hs : o.side
  · simp only [match_order, hs]
    exact match_loop_trades_nonneg _ _ _ _ ha
  · simp only [match_order, hs]
    exact match_loop_trades_nonneg _ _ _ _ hb

theorem trades_qty_nonneg (ts : List Trade) (h : ∀ t ∈ ts, 0 ≤ t.quantity) :
    0 ≤ trades_qty ts := by
  refine List.sum_nonneg ?_
  intro x hx
  rcases List.mem_map.1 hx with ⟨t, ht, rfl⟩
  exact h t ht

end OrderBook

end QuantumFlow

namespace QuantumFlow

/-- C5: status classification and residual insertion in
`MatchingEngine::submit_order`.  For a freshly created order
(`filled_quantity = 0`) with positive quantity, against a book whose
resting orders have non-negative remaining quantity: the returned order's
status is `Filled` iff its remaining quantity is `0`, `PartiallyFilled` iff
`0 < filled < total`, and `Open` iff `filled = 0`; and the book left
behind is the matched book exactly when the order is fully filled, and the
matched book with the residual appended otherwise. -/
theorem submit_order_status (b : OrderBook) (o : Order)
    (h0 : o.filled_quantity = 0) (hq : 0 < o.quantity)
    (hb : ∀ r ∈ Ladder.orders b.bids, 0 ≤ r.remaining_quantity)
    (ha : ∀ r ∈ Ladder.orders b.asks, 0 ≤ r.remaining_quantity) :
    ((submit_order b o).1.status = OrderStatus.Filled ↔
      (submit_order b o).1.remaining_quantity = 0) ∧
    ((submit_order b o).1.status = OrderStatus.PartiallyFilled ↔
      0 < (submit_order b o).1.filled_quantity ∧
      (submit_order b o).1.filled_quantity < (submit_order b o).1.quantity) ∧
    ((submit_order b o).1.status = OrderStatus.Open ↔
      (submit_order b o).1.filled_quantity = 0) ∧
    ((submit_order b o).1.is_fully_filled = true →
      (submit_order b o).2.1 = (b.match_order { o with status := OrderStatus.Open }).2.1) ∧
    ((submit_order b o).1.is_fully_filled = false →
      (submit_order b o).2.1 = OrderBook.add_order (b.match_order { o with status := OrderStatus.Open }).2.1 (submit_order b o).1) := by
  have hprops := OrderBook.match_order_props b ({ o with status := OrderStatus.Open })
  have hqty : (b.match_order { o with status := OrderStatus.Open }).1.quantity = o.quantity := hprops.1
  have hstat : (b.match_order { o with status := OrderStatus.Open }).1.status = OrderStatus.Open := hprops.2.2.2.2.2
  have htqn : 0 ≤ OrderBook.trades_qty (b.match_order { o with status := OrderStatus.Open }).2.2 :=
    OrderBook.trades_qty_nonneg _
      (OrderBook.match_order_trades_nonneg b ({ o with status := OrderStatus.Open }) hb ha)
  have hnn : 0 ≤ (b.match_order { o with status := OrderStatus.Open }).1.filled_quantity := by
    have h3 : (b.match_order { o with status := OrderStatus.Open }).1.filled_quantity = o.filled_quantity + OrderBook.trades_qty (b.match_order { o with status := OrderStatus.Open }).2.2 :=
      hprops.2.1
    linarith [h3, h0, htqn]
  have hle : (b.match_order { o with status := OrderStatus.Open }).1.filled_quantity ≤ o.quantity :=
    OrderBook.match_order_filled_le b ({ o with status := OrderStatus.Open })
      (show o.filled_quantity ≤ o.quantity from by rw [h0]; exact le_of_lt hq)
  by_cases hf : (b.match_order { o with status := OrderStatus.Open }).1.is_fully_filled = true
  · have hfeq : (b.match_order { o with status := OrderStatus.Open }).1.filled_quantity = o.quantity := by
      have h2 := (Order.is_fully_filled_iff _).1 hf
      rw [hqty] at h2
      linarith
    have hff : ({ (b.match_order { o with status := OrderStatus.Open }).1 with status := OrderStatus.Filled } : Order).is_fully_filled = true := hf
    have hsub : submit_order b o =
        ({ (b.match_order { o with status := OrderStatus.Open }).1 with status := OrderStatus.Filled }, (b.match_order { o with status := OrderStatus.Open }).2.1, (b.match_order { o with status := OrderStatus.Open }).2.2) := by
      simp only [submit_order, hf, eq_self_iff_true, if_true, hff]
    rw [hsub]
    refine ⟨?_, ?_, ?_, fun h5 => rfl, fun h5 => ?_⟩
    · show OrderStatus.Filled = OrderStatus.Filled ↔
        (b.match_order { o with status := OrderStatus.Open }).1.quantity - (b.match_order { o with status := OrderStatus.Open }).1.filled_quantity = 0
      refine ⟨fun _ => ?_, fun _ => rfl⟩
      rw [hqty, hfeq]
      exact sub_self _
    · show OrderStatus.Filled = OrderStatus.PartiallyFilled ↔
        0 < (b.match_order { o with status := OrderStatus.Open }).1.filled_quantity ∧ (b.match_order { o with status := OrderStatus.Open }).1.filled_quantity < (b.match_order { o with status := OrderStatus.Open }).1.quantity
      refine ⟨fun hcon => OrderStatus.noConfusion hcon, fun hcon => False.elim ?_⟩
      have h6 := hcon.2
      rw [hqty, hfeq] at h6
      exact lt_irrefl _ h6
    · show OrderStatus.Filled = OrderStatus.Open ↔ (b.match_order { o with status := OrderStatus.Open }).1.filled_quantity = 0
      refine ⟨fun hcon => OrderStatus.noConfusion hcon, fun hcon => False.elim ?_⟩
      rw [hfeq] at hcon
      exact absurd hcon (ne_of_gt hq)
    · exfalso
      have h6 : ({ (b.match_order { o with status := OrderStatus.Open }).1 with status := OrderStatus.Filled } : Order).is_fully_filled = false := h5
      rw [hff] at h6
      exact Bool.noConfusion h6
  · simp only [Bool.not_eq_true] at hf
    have hlt : (b.match_order { o with status := OrderStatus.Open }).1.filled_quantity < o.quantity := by
      have h2 := (Order.not_fully_filled_iff _).1 hf
      rwa [hqty] at h2
    by_cases hp : 0 < (b.match_order { o with status := OrderStatus.Open }).1.filled_quantity
    · have hffP : ({ (b.match_order { o with status := OrderStatus.Open }).1 with status := OrderStatus.PartiallyFilled } : Order).is_fully_filled = false := hf
      have hsub : submit_order b o =
          ({ (b.match_order { o with status := OrderStatus.Open }).1 with status := OrderStatus.PartiallyFilled },
            OrderBook.add_order (b.match_order { o with status := OrderStatus.Open }).2.1 ({ (b.match_order { o with status := OrderStatus.Open }).1 with status := OrderStatus.PartiallyFilled }), (b.match_order { o with status := OrderStatus.Open }).2.2) := by
        simp only [submit_order, hf, Bool.false_eq_true, if_false, hp, if_true, hffP]
      rw [hsub]
      refine ⟨?_, ?_, ?_, fun h5 => ?_, fun h5 => rfl⟩
      · show OrderStatus.PartiallyFilled = OrderStatus.Filled ↔
          (b.match_order { o with status := OrderStatus.Open }).1.quantity - (b.match_order { o with status := OrderStatus.Open }).1.filled_quantity = 0
        refine ⟨fun hcon => OrderStatus.noConfusion hcon, fun hcon => False.elim ?_⟩
        have h6 := hcon
        rw [hqty] at h6
        linarith [h6, hlt]
      · show OrderStatus.PartiallyFilled = OrderStatus.PartiallyFilled ↔
          0 < (b.match_order { o with status := OrderStatus.Open }).1.filled_quantity ∧ (b.match_order { o with status := OrderStatus.Open }).1.filled_quantity < (b.match_order { o with status := OrderStatus.Open }).1.quantity
        refine ⟨fun _ => ⟨hp, ?_⟩, fun _ => rfl⟩
        rw [hqty]
        exact hlt
      · show OrderStatus.PartiallyFilled = OrderStatus.Open ↔ (b.match_order { o with status := OrderStatus.Open }).1.filled_quantity = 0
        refine ⟨fun hcon => OrderStatus.noConfusion hcon, fun hcon => False.elim ?_⟩
        rw [hcon] at hp
        exact lt_irrefl 0 hp
      · exfalso
        have h6 : ({ (b.match_order { o with status := OrderStatus.Open }).1 with status := OrderStatus.PartiallyFilled } : Order).is_fully_filled = true := h5
        rw [hffP] at h6
        exact Bool.noConfusion h6
    · have hz : (b.match_order { o with status := OrderStatus.Open }).1.filled_quantity = 0 := le_antisymm (not_lt.1 hp) hnn
      have hsub : submit_order b o =
          ((b.match_order { o with status := OrderStatus.Open }).1, OrderBook.add_order (b.match_order { o with status := OrderStatus.Open }).2.1 (b.match_order { o with status := OrderStatus.Open }).1, (b.match_order { o with status := OrderStatus.Open }).2.2) := by
        simp only [submit_order, hf, Bool.false_eq_true, if_false, hp, if_false]
      rw [hsub]
      refine ⟨?_, ?_, ?_, fun h5 => ?_, fun h5 => rfl⟩
      · rw [hstat]
        show OrderStatus.Open = OrderStatus.Filled ↔
          (b.match_order { o with status := OrderStatus.Open }).1.quantity - (b.match_order { o with status := OrderStatus.Open }).1.filled_quantity = 0
        refine ⟨fun hcon => OrderStatus.noConfusion hcon, fun hcon => False.elim ?_⟩
        have h6 := hcon
        rw [hqty, hz] at h6
        simp at h6
        exact absurd h6 (ne_of_gt hq)
      · rw [hstat]
        show OrderStatus.Open = OrderStatus.PartiallyFilled ↔
          0 < (b.match_order { o with status := OrderStatus.Open }).1.filled_quantity ∧ (b.match_order { o with status := OrderStatus.Open }).1.filled_quantity < (b.match_order { o with status := OrderStatus.Open }).1.quantity
        refine ⟨fun hcon => OrderStatus.noConfusion hcon, fun hcon => False.elim ?_⟩
        have h6 := hcon.1
        rw [hz] at h6
        exact lt_irrefl 0 h6
      · rw [hstat]
        show OrderStatus.Open = OrderStatus.Open ↔ (b.match_order { o with status := OrderStatus.Open }).1.filled_quantity = 0
        exact ⟨fun _ => hz, fun _ => rfl⟩
      · exfalso
        have h6 : (b.match_order { o with status := OrderStatus.Open }).1.is_fully_filled = true := h5
        rw [hf] at h6
        exact Bool.noConfusion h6

/-- C5 witness: partial-fill scenario — a Buy for 5 against 3 resting units
is `PartiallyFilled` with `0 < filled < total`. -/
theorem submit_order_status_witness :
    ((submit_order (OrderBook.add_order (OrderBook.new "S") (mk_order 1 "S" Side.Sell 99 3))
        (mk_order 2 "S" Side.Buy 100 5)).1.status = OrderStatus.PartiallyFilled ↔
      0 < (submit_order (OrderBook.add_order (OrderBook.new "S") (mk_order 1 "S" Side.Sell 99 3))
        (mk_order 2 "S" Side.Buy 100 5)).1.filled_quantity ∧
      (submit_order (OrderBook.add_order (OrderBook.new "S") (mk_order 1 "S" Side.Sell 99 3))
        (mk_order 2 "S" Side.Buy 100 5)).1.filled_quantity <
      (submit_order (OrderBook.add_order (OrderBook.new "S") (mk_order 1 "S" Side.Sell 99 3))
        (mk_order 2 "S" Side.Buy 100 5)).1.quantity) ∧
    (submit_order (OrderBook.add_order (OrderBook.new "S") (mk_order 1 "S" Side.Sell 99 3))
      (mk_order 2 "S" Side.Buy 100 5)).1.status = OrderStatus.PartiallyFilled :=
  ⟨(submit_order_status (OrderBook.add_order (OrderBook.new "S") (mk_order 1 "S" Side.Sell 99 3))
      (mk_order 2 "S" Side.Buy 100 5) rfl (by decide) (by decide) (by decide)).2.1,
   by decide⟩

end QuantumFlow

namespace QuantumFlow

namespace OrderBook

theorem match_loop_well_keyed (sym : String) (o : Order) (lad : Ladder) (ps : List Rat)
    (hw : Ladder.well_keyed lad) : Ladder.well_keyed (match_loop sym o lad ps).2.1 := by
  induction ps generalizing o lad with
  | nil => simpa [match_loop] using hw
  | cons p ps ih =>
    by_cases h1 : o.is_fully_filled
    · simpa [match_loop, h1] using hw
    · simp only [Bool.not_eq_true] at h1
      cases hlk : Ladder.lookup lad p with
      | none =>
        simp only [match_loop, h1, Bool.false_eq_true, if_false, hlk]
        exact ih o lad hw
      | some queue =>
        simp only [match_loop, h1, Bool.false_eq_true, if_false, hlk]
        exact ih _ _ (step_ladder_well_keyed sym p o lad queue hw hlk)

theorem insert_append_well_keyed {l : Ladder} {p : Rat} {v : Order}
    (hw : Ladder.well_keyed l) (hv : v.price = p) :
    Ladder.well_keyed (Ladder.insert_append l p v) := by
  intro e he r hr
  rcases Ladder.mem_insert_append l p v e he with hcase | hcase | ⟨q, hq, hcase⟩
  · exact hw e hcase r hr
  · rw [hcase] at hr ⊢
    simp only [List.mem_singleton] at hr
    rw [hr, hv]
  · rw [hcase] at hr ⊢
    rcases List.mem_append.1 hr with hr2 | hr2
    · exact hw (p, q) hq r hr2
    · simp only [List.mem_singleton] at hr2
      rw [hr2, hv]

end OrderBook

theorem submit_order_book_cases (b : OrderBook) (o : Order) :
    ((b.match_order { o with status := OrderStatus.Open }).1.is_fully_filled = true ∧
      (submit_order b o).2.1 = (b.match_order { o with status := OrderStatus.Open }).2.1) ∨
    ((b.match_order { o with status := OrderStatus.Open }).1.is_fully_filled = false ∧
      (submit_order b o).2.1 = OrderBook.add_order (b.match_order { o with status := OrderStatus.Open }).2.1 (submit_order b o).1 ∧
      (submit_order b o).1.side = o.side ∧ (submit_order b o).1.price = o.price ∧
      (submit_order b o).1.filled_quantity < (submit_order b o).1.quantity) := by
  have hprops := OrderBook.match_order_props b ({ o with status := OrderStatus.Open })
  by_cases hf : (b.match_order { o with status := OrderStatus.Open }).1.is_fully_filled = true
  · have hff : ({ (b.match_order { o with status := OrderStatus.Open }).1 with status := OrderStatus.Filled } : Order).is_fully_filled = true := hf
    have hsub : submit_order b o =
        ({ (b.match_order { o with status := OrderStatus.Open }).1 with status := OrderStatus.Filled }, (b.match_order { o with status := OrderStatus.Open }).2.1, (b.match_order { o with status := OrderStatus.Open }).2.2) := by
      simp only [submit_order, hf, eq_self_iff_true, if_true, hff]
    exact Or.inl ⟨hf, by rw [hsub]⟩
  · simp only [Bool.not_eq_true] at hf
    have hlt : (b.match_order { o with status := OrderStatus.Open }).1.filled_quantity < (b.match_order { o with status := OrderStatus.Open }).1.quantity := (Order.not_fully_filled_iff _).1 hf
    refine Or.inr ⟨hf, ?_⟩
    by_cases hp : 0 < (b.match_order { o with status := OrderStatus.Open }).1.filled_quantity
    · have hffP : ({ (b.match_order { o with status := OrderStatus.Open }).1 with status := OrderStatus.PartiallyFilled } : Order).is_fully_filled = false := hf
      have hsub : submit_order b o =
          ({ (b.match_order { o with status := OrderStatus.Open }).1 with status := OrderStatus.PartiallyFilled },
            OrderBook.add_order (b.match_order { o with status := OrderStatus.Open }).2.1 ({ (b.match_order { o with status := OrderStatus.Open }).1 with status := OrderStatus.PartiallyFilled }), (b.match_order { o with status := OrderStatus.Open }).2.2) := by
        simp only [submit_order, hf, Bool.false_eq_true, if_false, hp, if_true, hffP]
      rw [hsub]
      refine ⟨rfl, ?_, ?_, ?_⟩
      · show (b.match_order { o with status := OrderStatus.Open }).1.side = o.side
        simpa using hprops.2.2.2.1
      · show (b.match_order { o with status := OrderStatus.Open }).1.price = o.price
        simpa using hprops.2.2.2.2.1
      · exact hlt
    · have hsub : submit_order b o =
          ((b.match_order { o with status := OrderStatus.Open }).1, OrderBook.add_order (b.match_order { o with status := OrderStatus.Open }).2.1 (b.match_order { o with status := OrderStatus.Open }).1, (b.match_order { o with status := OrderStatus.Open }).2.2) := by
        simp only [submit_order, hf, Bool.false_eq_true, if_false, hp, if_false]
      rw [hsub]
      refine ⟨rfl, ?_, ?_, hlt⟩
      · show (b.match_order { o with status := OrderStatus.Open }).1.side = o.side
        simpa using hprops.2.2.2.1
      · show (b.match_order { o with status := OrderStatus.Open }).1.price = o.price
        simpa using hprops.2.2.2.2.1

end QuantumFlow

namespace QuantumFlow

theorem book_new_wf (s : String) : BookWF (OrderBook.new s) := by
  refine ⟨?_, ?_, ?_, ?_, ?_, ?_, ?_, ?_, ?_⟩ <;>
    simp [OrderBook.new, Ladder.Sorted, Ladder.keys, Ladder.orders, Ladder.well_keyed]

/-- After `match_order` the book still satisfies the representation
invariant, its ladder keys only shrink, and — when the aggressor is not
fully filled — every surviving opposite-side key is strictly beyond the
aggressor's limit. -/
theorem match_order_book_wf (b : OrderBook) (o : Order) (hwf : BookWF b) :
    BookWF (b.match_order o).2.1 ∧
    (∀ k ∈ Ladder.keys (b.match_order o).2.1.bids, k ∈ Ladder.keys b.bids) ∧
    (∀ k ∈ Ladder.keys (b.match_order o).2.1.asks, k ∈ Ladder.keys b.asks) ∧
    ((b.match_order o).1.is_fully_filled = false → o.side = Side.Buy →
      ∀ pa ∈ Ladder.keys (b.match_order o).2.1.asks, o.price < pa) ∧
    ((b.match_order o).1.is_fully_filled = false → o.side = Side.Sell →
      ∀ pb ∈ Ladder.keys (b.match_order o).2.1.bids, pb < o.price) := by
  obtain ⟨hbs, has, hbne, hane, hbrem, harem, hbk, hak, hcross⟩ := hwf
  cases hs : o.side
  · simp only [OrderBook.match_order, hs]
    refine ⟨⟨hbs, ?_, hbne, ?_, hbrem, ?_, hbk, ?_, ?_⟩, ?_, ?_, ?_, ?_⟩
    · exact OrderBook.match_loop_sorted _ _ _ _ has
    · exact OrderBook.match_loop_levels_ne _ _ _ _ hane
    · exact OrderBook.match_loop_orders_rem_pos _ _ _ _ harem
    · exact OrderBook.match_loop_well_keyed _ _ _ _ hak
    · intro pb hpb pa hpa
      exact hcross pb hpb pa (OrderBook.match_loop_keys_mem _ _ _ _ pa hpa)
    · intro k hk
      exact hk
    · intro k hk
      exact OrderBook.match_loop_keys_mem _ _ _ _ k hk
    · intro hnf _ pa hpa
      by_contra hle
      push_neg at hle
      have hk : pa ∈ Ladder.keys b.asks := OrderBook.match_loop_keys_mem _ _ _ _ pa hpa
      have hcand : pa ∈ OrderBook.prices_to_match o b.asks :=
        (OrderBook.prices_to_match_buy_iff o b.asks hs pa).2 ⟨hk, hle⟩
      have hnone := OrderBook.match_loop_candidates_removed b.symbol o b.asks
        (OrderBook.prices_to_match o b.asks) has hnf pa hcand
      rw [Ladder.lookup_eq_none_iff] at hnone
      exact hnone hpa
    · intro _ hcon
      exact Side.noConfusion hcon
  · simp only [OrderBook.match_order, hs]
    refine ⟨⟨?_, has, ?_, hane, ?_, harem, ?_, hak, ?_⟩, ?_, ?_, ?_, ?_⟩
    · exact OrderBook.match_loop_sorted _ _ _ _ hbs
    · exact OrderBook.match_loop_levels_ne _ _ _ _ hbne
    · exact OrderBook.match_loop_orders_rem_pos _ _ _ _ hbrem
    · exact OrderBook.match_loop_well_keyed _ _ _ _ hbk
    · intro pb hpb pa hpa
      exact hcross pb (OrderBook.match_loop_keys_mem _ _ _ _ pb hpb) pa hpa
    · intro k hk
      exact OrderBook.match_loop_keys_mem _ _ _ _ k hk
    · intro k hk
      exact hk
    · intro _ hcon
      exact Side.noConfusion hcon
    · intro hnf _ pb hpb
      by_contra hle
      push_neg at hle
      have hk : pb ∈ Ladder.keys b.bids := OrderBook.match_loop_keys_mem _ _ _ _ pb hpb
      have hcand : pb ∈ OrderBook.prices_to_match o b.bids :=
        (OrderBook.prices_to_match_sell_iff o b.bids hs pb).2 ⟨hk, hle⟩
      have hnone := OrderBook.match_loop_candidates_removed b.symbol o b.bids
        (OrderBook.prices_to_match o b.bids) hbs hnf pb hcand
      rw [Ladder.lookup_eq_none_iff] at hnone
      exact hnone hpb

theorem add_order_wf_buy (b : OrderBook) (o : Order) (hs : o.side = Side.Buy)
    (hwf : BookWF b) (hrem : o.filled_quantity < o.quantity)
    (hcr : ∀ pa ∈ Ladder.keys b.asks, o.price < pa) :
    BookWF (b.add_order o) := by
  obtain ⟨hbs, has, hbne, hane, hbrem, harem, hbk, hak, hcross⟩ := hwf
  have hb : (b.add_order o).bids = Ladder.insert_append b.bids o.price o := by
    simp [OrderBook.add_order, hs]
  have ha : (b.add_order o).asks = b.asks := by
    simp [OrderBook.add_order, hs]
  refine ⟨?_, ?_, ?_, ?_, ?_, ?_, ?_, ?_, ?_⟩ <;> simp only [hb, ha]
  · exact Ladder.sorted_insert_append o.price o hbs
  · exact has
  · intro e he
    rcases Ladder.mem_insert_append b.bids o.price o e he with hc | hc | ⟨q, hq, hc⟩
    · exact hbne e hc
    · rw [hc]
      simp
    · rw [hc]
      simp
  · exact hane
  · intro r hr
    rcases Ladder.mem_orders_insert_append b.bids o.price o r hr with hc | hc
    · exact hbrem r hc
    · rw [hc, Order.remaining_pos_iff]
      exact hrem
  · exact harem
  · exact OrderBook.insert_append_well_keyed hbk rfl
  · exact hak
  · intro pb hpb pa hpa
    rcases Ladder.keys_insert_append b.bids o.price o pb hpb with hc | hc
    · exact hcross pb hc pa hpa
    · rw [hc]
      exact hcr pa hpa

theorem add_order_wf_sell (b : OrderBook) (o : Order) (hs : o.side = Side.Sell)
    (hwf : BookWF b) (hrem : o.filled_quantity < o.quantity)
    (hcr : ∀ pb ∈ Ladder.keys b.bids, pb < o.price) :
    BookWF (b.add_order o) := by
  obtain ⟨hbs, has, hbne, hane, hbrem, harem, hbk, hak, hcross⟩ := hwf
  have hb : (b.add_order o).bids = b.bids := by
    simp [OrderBook.add_order, hs]
  have ha : (b.add_order o).asks = Ladder.insert_append b.asks o.price o := by
    simp [OrderBook.add_order, hs]
  refine ⟨?_, ?_, ?_, ?_, ?_, ?_, ?_, ?_, ?_⟩ <;> simp only [hb, ha]
  · exact hbs
  · exact Ladder.sorted_insert_append o.price o has
  · exact hbne
  · intro e he
    rcases Ladder.mem_insert_append b.asks o.price o e he with hc | hc | ⟨q, hq, hc⟩
    · exact hane e hc
    · rw [hc]
      simp
    · rw [hc]
      simp
  · exact hbrem
  · intro r hr
    rcases Ladder.mem_orders_insert_append b.asks o.price o r hr with hc | hc
    · exact harem r hc
    · rw [hc, Order.remaining_pos_iff]
      exact hrem
  · exact hbk
  · exact OrderBook.insert_append_well_keyed hak rfl
  · intro pb hpb pa hpa
    rcases Ladder.keys_insert_append b.asks o.price o pa hpa with hc | hc
    · exact hcross pb hpb pa hc
    · rw [hc]
      exact hcr pb hpb

end QuantumFlow

namespace QuantumFlow

theorem submit_order_wf (b : OrderBook) (o : Order) (hwf : BookWF b) :
    BookWF (submit_order b o).2.1 := by
  rcases submit_order_book_cases b o with ⟨hf, heq⟩ | ⟨hf, heq, hside, hprice, hlt⟩
  · rw [heq]
    exact (match_order_book_wf b ({ o with status := OrderStatus.Open }) hwf).1
  · rw [heq]
    have hmwf := match_order_book_wf b ({ o with status := OrderStatus.Open }) hwf
    rcases (show o.side = Side.Buy ∨ o.side = Side.Sell from by
      cases o.side
      · exact Or.inl rfl
      · exact Or.inr rfl) with hs | hs
    · refine add_order_wf_buy _ _ (hside.trans hs) hmwf.1 hlt ?_
      intro pa hpa
      rw [hprice]
      exact hmwf.2.2.2.1 hf
        (show ({ o with status := OrderStatus.Open } : Order).side = Side.Buy from hs) pa hpa
    · refine add_order_wf_sell _ _ (hside.trans hs) hmwf.1 hlt ?_
      intro pb hpb
      rw [hprice]
      exact hmwf.2.2.2.2 hf
        (show ({ o with status := OrderStatus.Open } : Order).side = Side.Sell from hs) pb hpb

theorem mem_set_book (e : Engine) (s : String) (b : OrderBook) (x : String × OrderBook)
    (h : x ∈ Engine.set_book e s b) : x ∈ e ∨ x = (s, b) := by
  induction e with
  | nil =>
    simp [Engine.set_book] at h
    exact Or.inr h
  | cons e0 rest ih =>
    obtain ⟨s0, b0⟩ := e0
    by_cases hsq : s = s0
    · simp only [Engine.set_book, hsq, eq_self_iff_true, if_true] at h
      rcases List.mem_cons.1 h with hc | hc
      · exact Or.inr (by rw [hc, hsq])
      · exact Or.inl (List.mem_cons_of_mem _ hc)
    · simp only [Engine.set_book, hsq, if_false] at h
      rcases List.mem_cons.1 h with hc | hc
      · exact Or.inl (by rw [hc]; exact List.mem_cons_self _ _)
      · rcases ih hc with hc2 | hc2
        · exact Or.inl (List.mem_cons_of_mem _ hc2)
        · exact Or.inr hc2

theorem find_book_mem (e : Engine) (s : String) (b : OrderBook)
    (h : Engine.find_book e s = some b) : (s, b) ∈ e := by
  induction e with
  | nil => simp [Engine.find_book] at h
  | cons e0 rest ih =>
    obtain ⟨s0, b0⟩ := e0
    by_cases hsq : s = s0
    · simp only [Engine.find_book, hsq, eq_self_iff_true, if_true, Option.some_inj] at h
      rw [hsq, h]
      exact List.mem_cons_self _ _
    · simp only [Engine.find_book, hsq, if_false] at h
      exact List.mem_cons_of_mem _ (ih h)

theorem engine_wf (e : Engine) (h : Reachable e) : ∀ sb ∈ e, BookWF sb.2 := by
  induction h with
  | empty =>
    intro sb hsb
    simp at hsb
  | step e o hrec h0 ih =>
    intro sb hsb
    cases hfb : Engine.find_book e o.symbol with
    | none =>
      have hsb2 : sb ∈ Engine.set_book e o.symbol
          (submit_order (OrderBook.new o.symbol) o).2.1 := by
        simpa [engine_submit, hfb] using hsb
      rcases mem_set_book _ _ _ sb hsb2 with hc | hc
      · exact ih sb hc
      · rw [hc]
        exact submit_order_wf _ _ (book_new_wf _)
    | some b0 =>
      have hsb2 : sb ∈ Engine.set_book e o.symbol (submit_order b0 o).2.1 := by
        simpa [engine_submit, hfb] using hsb
      rcases mem_set_book _ _ _ sb hsb2 with hc | hc
      · exact ih sb hc
      · rw [hc]
        exact submit_order_wf _ _ (ih (o.symbol, b0) (find_book_mem e o.symbol b0 hfb))

/-- C4: after any sequence of submits from the empty engine, every order
book in the engine satisfies: no empty FIFO at a live price key, every
queued order has remaining quantity `> 0`, and `best_bid < best_ask`
whenever both exist. -/
theorem engine_reachable_book_invariants (e : Engine) (h : Reachable e) :
    ∀ sb ∈ e, (∀ lv ∈ sb.2.bids, lv.2 ≠ []) ∧ (∀ lv ∈ sb.2.asks, lv.2 ≠ []) ∧
      (∀ r ∈ Ladder.orders sb.2.bids, 0 < r.remaining_quantity) ∧
      (∀ r ∈ Ladder.orders sb.2.asks, 0 < r.remaining_quantity) ∧
      (∀ bb ba, sb.2.get_best_bid = some bb → sb.2.get_best_ask = some ba → bb < ba) := by
  intro sb hsb
  obtain ⟨hbs, has, hbne, hane, hbrem, harem, hbk, hak, hcross⟩ := engine_wf e h sb hsb
  refine ⟨hbne, hane, hbrem, harem, ?_⟩
  intro bb ba hbb hba
  have h1 : bb ∈ Ladder.keys sb.2.bids :=
    List.mem_of_getLast?_eq_some
      (show (Ladder.keys sb.2.bids).getLast? = some bb from hbb)
  have hba2 : (Ladder.keys sb.2.asks).head? = some ba := hba
  have h2 : ba ∈ Ladder.keys sb.2.asks := List.mem_of_mem_head? (by rw [hba2]; rfl)
  exact hcross bb h1 ba h2

/-- C4 witness: submit a Buy at 99 then a Sell at 101 from the empty
engine; the resulting book for symbol "B" satisfies all three invariants,
in particular `best_bid = 99 < 101 = best_ask`. -/
theorem engine_reachable_book_invariants_witness :
    (∀ lv ∈ ((Engine.find_book (engine_submit (engine_submit [] (mk_order 1 "B" Side.Buy 99 1)).2.1 (mk_order 2 "B" Side.Sell 101 2)).2.1 "B").getD (OrderBook.new "B")).bids, lv.2 ≠ []) ∧
    (∀ lv ∈ ((Engine.find_book (engine_submit (engine_submit [] (mk_order 1 "B" Side.Buy 99 1)).2.1 (mk_order 2 "B" Side.Sell 101 2)).2.1 "B").getD (OrderBook.new "B")).asks, lv.2 ≠ []) ∧
    (∀ r ∈ Ladder.orders ((Engine.find_book (engine_submit (engine_submit [] (mk_order 1 "B" Side.Buy 99 1)).2.1 (mk_order 2 "B" Side.Sell 101 2)).2.1 "B").getD (OrderBook.new "B")).bids, 0 < r.remaining_quantity) ∧
    (∀ r ∈ Ladder.orders ((Engine.find_book (engine_submit (engine_submit [] (mk_order 1 "B" Side.Buy 99 1)).2.1 (mk_order 2 "B" Side.Sell 101 2)).2.1 "B").getD (OrderBook.new "B")).asks, 0 < r.remaining_quantity) ∧
    (∀ bb ba, ((Engine.find_book (engine_submit (engine_submit [] (mk_order 1 "B" Side.Buy 99 1)).2.1 (mk_order 2 "B" Side.Sell 101 2)).2.1 "B").getD (OrderBook.new "B")).get_best_bid = some bb →
      ((Engine.find_book (engine_submit (engine_submit [] (mk_order 1 "B" Side.Buy 99 1)).2.1 (mk_order 2 "B" Side.Sell 101 2)).2.1 "B").getD (OrderBook.new "B")).get_best_ask = some ba → bb < ba) :=
  engine_reachable_book_invariants (engine_submit (engine_submit [] (mk_order 1 "B" Side.Buy 99 1)).2.1 (mk_order 2 "B" Side.Sell 101 2)).2.1
    (Reachable.step (engine_submit [] (mk_order 1 "B" Side.Buy 99 1)).2.1
      (mk_order 2 "B" Side.Sell 101 2)
      (Reachable.step [] (mk_order 1 "B" Side.Buy 99 1) Reachable.empty rfl) rfl)
    ("B", ((Engine.find_book (engine_submit (engine_submit [] (mk_order 1 "B" Side.Buy 99 1)).2.1 (mk_order 2 "B" Side.Sell 101 2)).2.1 "B").getD (OrderBook.new "B"))) (by decide)

end QuantumFlow
